import Mathlib

/-!
# Verification of the wordle-solver core

Shallow embedding of the Bratet/wordle-solver repository (Python) and proofs
about its feedback generator (`Wordle.generate_feedback`,
`AbstractStrategy._generate_feedback`), candidate filter
(`AbstractStrategy._reduce_words_space`), solve loop (`AbstractStrategy.solve`),
game collaborator (`Wordle.make_guess`), and the four guess-selection
strategies.

Words are lists of characters (`Word`).  Python `int` is `Int`/`Nat`,
Python `float` is modelled by `ℝ` (the strategy scores), dictionaries of
letter counts by functions `Char → Int`, and Python sets of words by lists
used only through membership.
-/

/-- A word: Python `str`, used here as a sequence of characters. -/
abbrev Word := List Char

/-- Python `str.lower` on one character, for the ASCII range that the
word lists of this project use. -/
def pyLower (c : Char) : Char :=
  if 'A' ≤ c ∧ c ≤ 'Z' then Char.ofNat (c.toNat + 32) else c

/-- Python `str.lower` on a word. -/
def lowerStr (w : Word) : Word := w.map pyLower

/-- Python indexing `w[i]`.  Total with a placeholder character; every claim
is about 5-letter words indexed within bounds, where this agrees with the
source. -/
def charAt (w : Word) (i : Nat) : Char := w.getD i '?'

/-- The `letter_count` dictionary built from `target` at the start of
`generate_feedback`: each character of `target` maps to its number of
occurrences.  The dictionary's key set (membership test of the Python
`in letter_count`) is exactly the set of characters of `target` and never
changes afterwards, so it is kept as the list `target` itself and the
counts as a function. -/
def initCount (target : Word) : Char → Int := fun c => (target.count c : Int)

/-- First pass of `generate_feedback`: for each position `i`, if
`guess[i] == target[i]` mark `'G'` and decrement that letter's count;
otherwise leave the `'_'` placed by the initialisation.  Returns the
feedback array after the pass together with the updated counts. -/
def pass1 : Word → Word → (Char → Int) → List Char × (Char → Int)
  | g :: gs, t :: ts, cnt =>
    if g = t then
      let r := pass1 gs ts (fun c => if c = g then cnt c - 1 else cnt c)
      ('G' :: r.1, r.2)
    else
      let r := pass1 gs ts cnt
      ('_' :: r.1, r.2)
  | _, _, cnt => ([], cnt)

/-- Second pass of `generate_feedback`: for each position still `'_'`, if
`guess[i]` is a key of the dictionary (a character of `target`) with
remaining count `> 0`, mark `'Y'` and decrement. -/
def pass2 (target : Word) : Word → List Char → (Char → Int) → List Char
  | g :: gs, f :: fs, cnt =>
    if f = '_' ∧ target.contains g ∧ cnt g > 0 then
      'Y' :: pass2 target gs fs (fun c => if c = g then cnt c - 1 else cnt c)
    else
      f :: pass2 target gs fs cnt
  | _, _, _ => []

/-- The two-pass feedback algorithm shared verbatim by
`Wordle.generate_feedback` (src/wordle.py lines 72-101, applied to the
game's target word) and `AbstractStrategy._generate_feedback`
(src/strategies/abstract_strategy.py lines 12-48, applied after
lowercasing).  Both iterate positions `0 ≤ i < 5` of two length-5 words,
which the simultaneous list recursion reproduces. -/
def twoPassFeedback (guess target : Word) : List Char :=
  let r := pass1 guess target (initCount target)
  pass2 target guess r.1 r.2

/-- The number of positions where guess and target carry the same letter `c`
(pass 1 marks exactly these `'G'` and decrements `c`'s count once each). -/
def matchCount (g t : Word) (c : Char) : Nat :=
  ((g.zip t).filter (fun p => p.1 == p.2 && p.1 == c)).length

/-- The number of feedback positions carrying mark `s` whose guess letter is
`c`. -/
def markCount (g fb : List Char) (s c : Char) : Nat :=
  ((g.zip fb).filter (fun p => p.1 == c && p.2 == s)).length
namespace AbstractStrategy

/-- `AbstractStrategy._generate_feedback`: lowercase both words, then run
the two-pass algorithm. -/
def generateFeedback (guess target : Word) : List Char :=
  twoPassFeedback (lowerStr guess) (lowerStr target)

/-- The letters marked `'_'` in the feedback (`gray_letters` in
`_reduce_words_space`); the Python set is modelled by first-occurrence
order with duplicates removed, which the filtering below only consumes
through independent per-letter filters, so iteration order is
irrelevant to the result. -/
def grayLetters (g : Word) (feedback : List Char) : List Char :=
  (feedback.enum.filterMap (fun is => if is.2 = '_' then some (charAt g is.1) else none)).dedup

/-- `green_yellow_count` of `_reduce_words_space`: how many positions of
the feedback are `'G'` or `'Y'` with `guess[i]` equal to the given gray
letter. -/
def greenYellowCount (g : Word) (feedback : List Char) (c : Char) : Nat :=
  (feedback.enum.filter (fun is => (is.2 == 'G' || is.2 == 'Y') && charAt g is.1 == c)).length

/-- `AbstractStrategy._reduce_words_space` (src/strategies/abstract_strategy.py
lines 51-103): lowercase the guess, then three passes of list filtering:
greens (`guess[i] == word[i]`), yellows (`guess[i] in word and
guess[i] != word[i]`), and grays (for each gray letter, words containing
it are removed when it is never green/yellow, otherwise words holding it
more often than its green/yellow count are removed; `list.remove` inside
the loop over a copy deletes exactly the offending words, i.e. acts as a
filter). -/
def reduceWordsSpace (guess : Word) (possibleWords : List Word) (feedback : List Char) :
    List Word :=
  let g := lowerStr guess
  let s1 := feedback.enum.foldl (fun sp is =>
      if is.2 = 'G' then sp.filter (fun w => charAt g is.1 == charAt w is.1) else sp)
    possibleWords
  let s2 := feedback.enum.foldl (fun sp is =>
      if is.2 = 'Y' then
        sp.filter (fun w => w.contains (charAt g is.1) && !(charAt g is.1 == charAt w is.1))
      else sp)
    s1
  (grayLetters g feedback).foldl (fun sp c =>
      if greenYellowCount g feedback c = 0 then
        sp.filter (fun w => !(w.contains c))
      else
        sp.filter (fun w => !(decide (greenYellowCount g feedback c < w.count c))))
    s2

end AbstractStrategy
/-- Python `str.isalpha` on the words of this project (ASCII letters):
nonempty and every character alphabetic. -/
def isalphaStr (w : Word) : Bool :=
  !w.isEmpty && w.all Char.isAlpha

/-- The state of the `Wordle` game object (src/wordle.py): configuration,
attempt counter, histories, the two word lists, and the target word. -/
structure Wordle where
  wordLength : Nat
  maxAttempts : Nat
  attempts : Nat
  guesses : List Word
  feedbacks : List (List Char)
  wordList : List Word
  targetWordList : List Word
  targetWord : Word

namespace Wordle

/-- `Wordle.generate_feedback` (src/wordle.py lines 72-101): the two-pass
algorithm against the game's target word (no lowercasing here;
`make_guess` lowercases the guess before calling it).  Faithful for words
of length `word_length`, the only case the game produces. -/
def generateFeedback (game : Wordle) (guess : Word) : List Char :=
  twoPassFeedback guess game.targetWord

/-- `Wordle.is_valid_word` (src/wordle.py lines 36-38): membership of the
lowercased word in the allowed-words list. -/
def isValidWord (game : Wordle) (w : Word) : Bool :=
  game.wordList.contains (lowerStr w)

/-- `Wordle.make_guess` (src/wordle.py lines 40-70): lowercase the guess,
validate length, alphabetic characters and dictionary membership (each
failure returns an error string and leaves the game unchanged), otherwise
record the guess, compute feedback, bump the attempt counter, and compare
with the target.  Returns `(is_correct, feedback, error)` plus the updated
game state. -/
def makeGuess (game : Wordle) (guess : Word) : (Bool × List Char × String) × Wordle :=
  let g := lowerStr guess
  if g.length ≠ game.wordLength then
    ((false, [], "Invalid word length"), game)
  else if ¬ isalphaStr g then
    ((false, [], "Word contains non-alphabetic characters"), game)
  else if ¬ game.isValidWord g then
    ((false, [], "Word not in dictionary"), game)
  else
    let game1 := { game with attempts := game.attempts + 1, guesses := game.guesses ++ [g] }
    let fb := game1.generateFeedback g
    let game2 := { game1 with feedbacks := game1.feedbacks ++ [fb] }
    ((g == game.targetWord, fb, ""), game2)

end Wordle

namespace AbstractStrategy

/-- The hard-coded attempt budget of `AbstractStrategy.solve`
(`max_attempts = 6`, line 111). -/
def solveMaxAttempts : Nat := 6

/-- The `while attempts < max_attempts` loop of `AbstractStrategy.solve`
(src/strategies/abstract_strategy.py lines 113-157).  `choose` is the
abstract `choose_best_guess` method (receiving the pool, the attempt index,
and the `self.previous_guesses` set, here threaded explicitly).  Every
continuing iteration raises `attempts` by exactly one and the guard is
`attempts < 6`, so the structural `fuel` parameter (`6 - attempts`, as
`solve` supplies it) never runs out before the guard stops the loop. -/
def solveLoop (choose : List Word → Nat → List Word → Word) :
    Nat → List Word → Nat → List Word → Wordle → (Option Word × Nat) × Wordle
  | 0, _, attempts, _, game => ((none, attempts), game)
  | fuel + 1, possibleWords, attempts, prev, game =>
    if attempts < solveMaxAttempts then
      let guess := choose possibleWords attempts prev
      let prev1 := prev.insert guess
      let attempts1 := attempts + 1
      let r := game.makeGuess guess
      if r.1.2.2 ≠ "" then
        solveLoop choose fuel possibleWords attempts1 prev1 r.2
      else if r.1.1 then
        ((some guess, attempts1), r.2)
      else
        let possible1 := reduceWordsSpace guess possibleWords r.1.2.1
        if possible1.length = 0 then
          ((none, attempts1), r.2)
        else if possible1.length = 1 ∧ attempts1 < solveMaxAttempts then
          let finalGuess := possible1.headD []
          if finalGuess ∈ prev1 ∧ finalGuess ≠ guess then
            solveLoop choose fuel possible1 attempts1 prev1 r.2
          else
            let _prev2 := prev1.insert finalGuess
            let r2 := r.2.makeGuess finalGuess
            if r2.1.1 then
              ((some finalGuess, attempts1 + 1), r2.2)
            else
              ((none, attempts1 + 1), r2.2)
        else
          solveLoop choose fuel possible1 attempts1 prev1 r.2
    else ((none, attempts), game)

/-- `AbstractStrategy.solve` (lines 105-158): the pool is initialised to the
strategy's vocabulary (`possible_words = self.vocabulary.copy()`), the
attempt counter to 0 and the previous-guess set to empty, then the bounded
loop runs against the game. -/
def solve (vocabulary : List Word) (choose : List Word → Nat → List Word → Word)
    (game : Wordle) : (Option Word × Nat) × Wordle :=
  solveLoop choose solveMaxAttempts vocabulary 0 [] game

end AbstractStrategy

/-- A concrete game used to exercise `make_guess` (target `"abcde"`). -/
def gameC10 : Wordle :=
  { wordLength := 5, maxAttempts := 6, attempts := 0, guesses := [], feedbacks := [],
    wordList := ["abcde".toList, "edcba".toList], targetWordList := ["abcde".toList],
    targetWord := "abcde".toList }

/-- A concrete game whose dictionary never contains the solver's guesses
(target `"bbbbb"`, allowed list `["bbbbb"]`). -/
def gameErr : Wordle :=
  { wordLength := 5, maxAttempts := 6, attempts := 0, guesses := [], feedbacks := [],
    wordList := ["bbbbb".toList], targetWordList := ["bbbbb".toList],
    targetWord := "bbbbb".toList }

/-- A concrete game whose possible-solutions list (`["bbbbb"]`) is a strict
subset of the allowed-guesses list (`["ccccc", "bbbbb"]`). -/
def gameSub : Wordle :=
  { wordLength := 5, maxAttempts := 6, attempts := 0, guesses := [], feedbacks := [],
    wordList := ["ccccc".toList, "bbbbb".toList], targetWordList := ["bbbbb".toList],
    targetWord := "bbbbb".toList }

namespace EntropyBasedStrategy

/-- The expected-entropy score of a trial guess over the remaining pool
(src/strategies/entropy_strategy.py lines 27-43): group the pool words by
the pattern each produces (dictionary keys in first-occurrence order,
i.e. `dedup`, with the group sizes given by `count`), then accumulate
`-p·log2(p + 1e-10)` with `p = |group| / |pool|`.  Python floats are
modelled by real numbers. -/
noncomputable def expectedEntropy (possibleWords : List Word) (candidateWord : Word) : ℝ :=
  let pats := possibleWords.map (fun t => AbstractStrategy.generateFeedback candidateWord t)
  (pats.dedup.map (fun p =>
    let probability : ℝ := (pats.count p : ℝ) / (possibleWords.length : ℝ);
    -(probability * Real.logb 2 (probability + 1e-10)))).sum

/-- The body of the vocabulary scan (lines 21-47): skip previously guessed
words; otherwise strictly improve the running
`(best_expected_entropy, best_guess)` pair. -/
noncomputable def scanStep (possibleWords previousGuesses : List Word)
    (best : ℝ × Option Word) (candidateWord : Word) : ℝ × Option Word :=
  if candidateWord ∈ previousGuesses then best
  else
    let e := expectedEntropy possibleWords candidateWord
    if e > best.1 then (e, some candidateWord) else best

/-- `EntropyBasedStrategy.choose_best_guess` (lines 7-49): the fixed opener
`'tares'` at attempt 0, the singleton fast path, else the vocabulary scan
starting from `best_expected_entropy = -1`, `best_guess = None`. -/
noncomputable def chooseBestGuess (vocabulary previousGuesses possibleWords : List Word)
    (attempts : Nat) : Option Word :=
  if attempts = 0 then some ("tares".toList)
  else if possibleWords.length = 1 then possibleWords.head?
  else
    (vocabulary.foldl (scanStep possibleWords previousGuesses)
      ((-1 : ℝ), (none : Option Word))).2

end EntropyBasedStrategy

namespace MinimaxBasedStrategy

/-- The worst-case pattern-group size of a trial guess
(src/strategies/minimax_strategy.py lines 26-37): the largest group of the
pool partitioned by pattern (`max` over the group sizes; the pools reaching
it are nonempty, so the `0` starting point of the fold is inert). -/
def worstCase (possibleWords : List Word) (candidateWord : Word) : Nat :=
  let pats := possibleWords.map (fun t => AbstractStrategy.generateFeedback candidateWord t)
  (pats.dedup.map (fun p => pats.count p)).foldl max 0

/-- One step of the minimax strategy's vocabulary scan (lines 25-42): skip
already-guessed words, otherwise keep the candidate whose worst case is
strictly below the best so far. -/
def scanStep (possibleWords previousGuesses : List Word)
    (best : WithTop Nat × Option Word) (candidateWord : Word) : WithTop Nat × Option Word :=
  if candidateWord ∈ previousGuesses then best
  else
    let wc := worstCase possibleWords candidateWord
    if (wc : WithTop Nat) < best.1 then ((wc : WithTop Nat), some candidateWord)
    else best

/-- `MinimaxBasedStrategy.choose_best_guess` (lines 6-45): the fixed opener
`'serai'`, the singleton fast path, else the vocabulary scan minimising the
worst case with strict `<`, starting from `float('inf')` (modelled as
`⊤ : WithTop ℕ`). -/
def chooseBestGuess (vocabulary previousGuesses possibleWords : List Word)
    (attempts : Nat) : Option Word :=
  if attempts = 0 then some ("serai".toList)
  else if possibleWords.length = 1 then possibleWords.head?
  else
    (vocabulary.foldl (scanStep possibleWords previousGuesses)
      ((⊤ : WithTop Nat), (none : Option Word))).2

end MinimaxBasedStrategy

namespace FrequencyBasedStrategy

/-- `position_frequencies[position][letter]`
(src/src/strategies/frequency_strategy.py lines 15-21): how many pool words
carry `letter` at `position`. -/
def positionFrequency (possibleWords : List Word) (position : Nat) (letter : Char) : Nat :=
  (possibleWords.filterMap (fun w => w[position]?)).count letter

/-- One step of the frequency scoring loop (lines 38-45): add the
per-position frequency of the current letter, multiply the running score by
0.8 when the letter repeats one seen earlier in the word, and record the
letter as seen.  Python floats are modelled by real numbers. -/
noncomputable def scoreStep (possibleWords : List Word)
    (st : ℝ × List Char) (pl : Nat × Char) : ℝ × List Char :=
  let s := st.1 + (positionFrequency possibleWords pl.1 pl.2 : ℝ)
  let s := if pl.2 ∈ st.2 then s * 0.8 else s
  (s, pl.2 :: st.2)

/-- The frequency score of a candidate word as a fold of `scoreStep` over
its enumerated letters (lines 38-45), from score 0 and no seen letters. -/
noncomputable def frequencyScore (possibleWords : List Word) (candidateWord : Word) : ℝ :=
  (candidateWord.enum.foldl (scoreStep possibleWords) ((0 : ℝ), ([] : List Char))).1

/-- One step of the frequency strategy's vocabulary scan (lines 28-50):
skip already-guessed words, otherwise keep the candidate whose frequency
score strictly exceeds the best so far. -/
noncomputable def scanStep (possibleWords previousGuesses : List Word)
    (best : ℝ × Option Word) (candidateWord : Word) : ℝ × Option Word :=
  if candidateWord ∈ previousGuesses then best
  else
    let s := frequencyScore possibleWords candidateWord
    if s > best.1 then (s, some candidateWord) else best

/-- `FrequencyBasedStrategy.choose_best_guess` (lines 6-52): the fixed
opener `'cares'`, the singleton fast path, else the vocabulary scan
maximising the frequency score with strict `>` from `best_score = -1`. -/
noncomputable def chooseBestGuess (vocabulary previousGuesses possibleWords : List Word)
    (attempts : Nat) : Option Word :=
  if attempts = 0 then some ("cares".toList)
  else if possibleWords.length = 1 then possibleWords.head?
  else
    (vocabulary.foldl (scanStep possibleWords previousGuesses)
      ((-1 : ℝ), (none : Option Word))).2

end FrequencyBasedStrategy

namespace HybridStrategy

/-- Python `min` of a nonempty list; the `[]` case (where the source raises
`ValueError`) is given the inert value 0. -/
noncomputable def pyMin (xs : List ℝ) : ℝ := xs.foldl min (xs.headD 0)

/-- Python `max` of a nonempty list; the `[]` case (where the source raises
`ValueError`) is given the inert value 0. -/
noncomputable def pyMax (xs : List ℝ) : ℝ := xs.foldl max (xs.headD 0)

/-- One step of the hybrid strategy's final selection loop (lines 101-110):
blend the candidate's normalised frequency and entropy scores with the
given weights and keep it when the blend strictly exceeds the best so
far. -/
noncomputable def mixStep (frequencyWeight entropyWeight : ℝ)
    (best : ℝ × Option Word) (ce : Word × (ℝ × ℝ)) : ℝ × Option Word :=
  let hybridScore := frequencyWeight * ce.2.1 + entropyWeight * ce.2.2
  if hybridScore > best.1 then (hybridScore, some ce.1) else best

/-- `HybridStrategy.choose_best_guess`
(src/src/strategies/hybrid_strategy.py lines 7-112): the fixed opener
`'tares'`, the singleton fast path, else: collect the non-excluded
candidate words in vocabulary order with their frequency scores (identical
computation to the frequency strategy, lines 16-22 and 56-67) and expected
entropies (identical computation to the entropy strategy, lines 38-54);
min-max normalise each score list (all-1.0 when the range is flat); mix
with the attempt-indexed weights renormalised to sum to 1; pick the first
strict maximiser of the blended score from `best_hybrid_score = -1`. -/
noncomputable def chooseBestGuess (vocabulary previousGuesses possibleWords : List Word)
    (attempts : Nat) : Option Word :=
  if attempts = 0 then some ("tares".toList)
  else if possibleWords.length = 1 then possibleWords.head?
  else
    let candidateWords := vocabulary.filter (fun c => decide (c ∉ previousGuesses))
    let frequencyScores :=
      candidateWords.map (FrequencyBasedStrategy.frequencyScore possibleWords)
    let entropyScores := candidateWords.map (EntropyBasedStrategy.expectedEntropy possibleWords)
    let minFreq := pyMin frequencyScores
    let maxFreq := pyMax frequencyScores
    let normalizedFreqScores :=
      if maxFreq > minFreq then
        frequencyScores.map (fun s => (s - minFreq) / (maxFreq - minFreq))
      else frequencyScores.map (fun _ => (1.0 : ℝ))
    let minEntropy := pyMin entropyScores
    let maxEntropy := pyMax entropyScores
    let normalizedEntropyScores :=
      if maxEntropy > minEntropy then
        entropyScores.map (fun s => (s - minEntropy) / (maxEntropy - minEntropy))
      else entropyScores.map (fun _ => (1.0 : ℝ))
    let entropyWeight := max (0.7 - (attempts : ℝ) * 0.1) 0.1
    let frequencyWeight := min (0.3 + (attempts : ℝ) * 0.1) 0.9
    let total := entropyWeight + frequencyWeight
    let entropyWeight := entropyWeight / total
    let frequencyWeight := frequencyWeight / total
    ((candidateWords.zip (normalizedFreqScores.zip normalizedEntropyScores)).foldl
      (mixStep frequencyWeight entropyWeight)
      ((-1 : ℝ), (none : Option Word))).2

end HybridStrategy

theorem charList_contains_iff {l : List Char} {a : Char} : l.contains a = true ↔ a ∈ l := by
  simp [List.contains_iff_exists_mem_beq, beq_iff_eq]

theorem pass1_fst_getElem? :
    ∀ (g t : Word) (cnt : Char → Int) (i : Nat),
      (pass1 g t cnt).1[i]? = some 'G' ↔ ∃ a, g[i]? = some a ∧ t[i]? = some a
  | [], t, cnt, i => by simp [pass1]
  | x :: gs, [], cnt, i => by simp [pass1]
  | x :: gs, y :: ts, cnt, i => by
    simp only [pass1]
    by_cases hxy : x = y
    · subst hxy
      cases i with
      | zero => simp
      | succ j => simpa using pass1_fst_getElem? gs ts _ j
    · cases i with
      | zero =>
        simp only [if_neg hxy, List.getElem?_cons_zero, Option.some.injEq]
        constructor
        · intro h; exact absurd h (by decide)
        · rintro ⟨a, ha, hb⟩
          exact absurd (ha.trans hb.symm) (by simpa using hxy)
      | succ j => simpa [if_neg hxy] using pass1_fst_getElem? gs ts cnt j

theorem pass1_fst_mem :
    ∀ (g t : Word) (cnt : Char → Int) (x : Char),
      x ∈ (pass1 g t cnt).1 → x = 'G' ∨ x = '_'
  | [], t, cnt, x => by simp [pass1]
  | g :: gs, [], cnt, x => by simp [pass1]
  | g :: gs, t :: ts, cnt, x => by
    simp only [pass1]
    by_cases hgt : g = t
    · simp only [if_pos hgt, List.mem_cons]
      rintro (rfl | h)
      · exact Or.inl rfl
      · exact pass1_fst_mem gs ts _ x h
    · simp only [if_neg hgt, List.mem_cons]
      rintro (rfl | h)
      · exact Or.inr rfl
      · exact pass1_fst_mem gs ts cnt x h

theorem pass1_fst_length :
    ∀ (g t : Word) (cnt : Char → Int),
      (pass1 g t cnt).1.length = min g.length t.length
  | [], t, cnt => by simp [pass1]
  | g :: gs, [], cnt => by simp [pass1]
  | g :: gs, t :: ts, cnt => by
    simp only [pass1]
    by_cases hgt : g = t <;>
      simp [hgt, pass1_fst_length gs ts, Nat.succ_min_succ]

theorem pass1_snd :
    ∀ (g t : Word) (cnt : Char → Int) (c : Char),
      (pass1 g t cnt).2 c = cnt c - (matchCount g t c : Int)
  | [], t, cnt, c => by simp [pass1, matchCount]
  | g :: gs, [], cnt, c => by simp [pass1, matchCount]
  | g :: gs, t :: ts, cnt, c => by
    by_cases hgt : g = t
    · subst hgt
      have hstep : (pass1 (g :: gs) (g :: ts) cnt).2 =
          (pass1 gs ts (fun x => if x = g then cnt x - 1 else cnt x)).2 := by
        simp [pass1]
      rw [hstep, pass1_snd gs ts _ c]
      by_cases hgc : c = g
      · subst hgc
        simp [matchCount, List.filter_cons]
        omega
      · have hcg : ¬g = c := fun h => hgc h.symm
        simp [matchCount, List.filter_cons, hgc, hcg]
    · have hstep : (pass1 (g :: gs) (t :: ts) cnt).2 = (pass1 gs ts cnt).2 := by
        simp [pass1, hgt]
      rw [hstep, pass1_snd gs ts _ c]
      simp [matchCount, List.filter_cons, hgt]

theorem matchCount_le_count :
    ∀ (g t : Word) (c : Char), matchCount g t c ≤ t.count c
  | [], t, c => by simp [matchCount]
  | g :: gs, [], c => by simp [matchCount]
  | g :: gs, t :: ts, c => by
    have ih := matchCount_le_count gs ts c
    simp only [matchCount, List.zip_cons_cons, List.filter_cons, List.count_cons] at ih ⊢
    cases hb : (g == t && g == c) with
    | false =>
      simp only [hb, Bool.false_eq_true, if_false]
      split <;> omega
    | true =>
      obtain ⟨h1, h2⟩ := Bool.and_eq_true_iff.mp hb
      rw [beq_iff_eq] at h1 h2
      have hct : c = t := by rw [← h2]; exact h1
      subst hct
      simp only [hb, if_true, List.length_cons, beq_self_eq_true]
      omega

theorem pass2_length (t : Word) :
    ∀ (g : Word) (fb : List Char) (cnt : Char → Int),
      (pass2 t g fb cnt).length = min g.length fb.length
  | [], fb, cnt => by simp [pass2]
  | g :: gs, [], cnt => by simp [pass2]
  | g :: gs, f :: fs, cnt => by
    simp only [pass2]
    split <;> simp [pass2_length t gs fs, Nat.succ_min_succ]

theorem pass2_getElem?_G (t : Word) :
    ∀ (g : Word) (fb : List Char) (cnt : Char → Int) (i : Nat),
      (∀ x ∈ fb, x = 'G' ∨ x = '_') →
      ((pass2 t g fb cnt)[i]? = some 'G' ↔ fb[i]? = some 'G' ∧ i < g.length)
  | [], fb, cnt, i, hfb => by simp [pass2]
  | g :: gs, [], cnt, i, hfb => by simp [pass2]
  | g :: gs, f :: fs, cnt, i, hfb => by
    have hfs : ∀ x ∈ fs, x = 'G' ∨ x = '_' := fun x hx => hfb x (List.mem_cons_of_mem f hx)
    simp only [pass2]
    split
    · next hguard =>
      cases i with
      | zero =>
        obtain ⟨hf, -, -⟩ := hguard
        simp [hf]
      | succ j => simpa [Nat.succ_lt_succ_iff] using pass2_getElem?_G t gs fs _ j hfs
    · cases i with
      | zero => simp
      | succ j => simpa [Nat.succ_lt_succ_iff] using pass2_getElem?_G t gs fs cnt j hfs

theorem pass2_getElem?_Y (t : Word) :
    ∀ (g : Word) (fb : List Char) (cnt : Char → Int) (i : Nat),
      (∀ x ∈ fb, x = 'G' ∨ x = '_') →
      (pass2 t g fb cnt)[i]? = some 'Y' →
      ∃ a, g[i]? = some a ∧ t.contains a = true ∧ fb[i]? = some '_'
  | [], fb, cnt, i, hfb => by simp [pass2]
  | g :: gs, [], cnt, i, hfb => by simp [pass2]
  | g :: gs, f :: fs, cnt, i, hfb => by
    have hfs : ∀ x ∈ fs, x = 'G' ∨ x = '_' := fun x hx => hfb x (List.mem_cons_of_mem f hx)
    simp only [pass2]
    split
    · next hguard =>
      cases i with
      | zero =>
        intro _
        exact ⟨g, by simp, hguard.2.1, by simp [hguard.1]⟩
      | succ j =>
        intro h
        simpa using pass2_getElem?_Y t gs fs _ j hfs (by simpa using h)
    · next hguard =>
      cases i with
      | zero =>
        intro h
        have hf : f = 'Y' := by simpa using h
        rcases hfb f (List.mem_cons_self f fs) with h1 | h1 <;> rw [hf] at h1 <;>
          exact absurd h1 (by decide)
      | succ j =>
        intro h
        simpa using pass2_getElem?_Y t gs fs cnt j hfs (by simpa using h)

theorem pass2_markG (t : Word) :
    ∀ (g : Word) (fb : List Char) (cnt : Char → Int) (c : Char),
      markCount g (pass2 t g fb cnt) 'G' c = markCount g fb 'G' c
  | [], fb, cnt, c => by simp [pass2, markCount]
  | g :: gs, [], cnt, c => by simp [pass2, markCount]
  | g :: gs, f :: fs, cnt, c => by
    have ihm := pass2_markG t gs fs (fun x => if x = g then cnt x - 1 else cnt x) c
    have ihk := pass2_markG t gs fs cnt c
    simp only [pass2]
    split
    · next hguard =>
      obtain ⟨hf, -, -⟩ := hguard
      subst hf
      simpa [markCount, List.filter_cons] using ihm
    · simp only [markCount, List.zip_cons_cons, List.filter_cons]
      simp only [markCount] at ihk
      cases hp : (g == c && f == 'G') <;> simp [hp, ihk]

theorem pass2_markY_le (t : Word) :
    ∀ (g : Word) (fb : List Char) (cnt : Char → Int) (c : Char),
      (∀ x ∈ fb, x = 'G' ∨ x = '_') →
      (markCount g (pass2 t g fb cnt) 'Y' c : Int) ≤ max (cnt c) 0
  | [], fb, cnt, c, hfb => by simp [pass2, markCount]
  | g :: gs, [], cnt, c, hfb => by simp [pass2, markCount]
  | g :: gs, f :: fs, cnt, c, hfb => by
    have hfs : ∀ x ∈ fs, x = 'G' ∨ x = '_' := fun x hx => hfb x (List.mem_cons_of_mem f hx)
    simp only [pass2]
    split
    · next hguard =>
      have ih := pass2_markY_le t gs fs (fun x => if x = g then cnt x - 1 else cnt x) c hfs
      by_cases hgc : g = c
      · subst hgc
        have hpos : cnt g > 0 := hguard.2.2
        simp only [markCount, List.zip_cons_cons, List.filter_cons, beq_self_eq_true,
          Bool.and_self, if_true, List.length_cons, if_pos rfl] at ih ⊢
        rw [max_eq_left (by omega : (0:ℤ) ≤ cnt g - 1)] at ih
        rw [max_eq_left (by omega : (0:ℤ) ≤ cnt g)]
        push_cast at ih ⊢
        omega
      · have hb : (g == c) = false := by simpa using hgc
        have hcg : ¬c = g := fun h => hgc h.symm
        simp only [markCount, List.zip_cons_cons, List.filter_cons, hb, Bool.false_and,
          Bool.false_eq_true, if_false] at ih ⊢
        simpa [if_neg hcg] using ih
    · next hguard =>
      have ih := pass2_markY_le t gs fs cnt c hfs
      have hfY : (f == 'Y') = false := by
        rcases hfb f (List.mem_cons_self f fs) with rfl | rfl <;> decide
      simp only [markCount, List.zip_cons_cons, List.filter_cons, hfY, Bool.and_false,
        Bool.false_eq_true, if_false] at ih ⊢
      exact ih

theorem pass2_markY_zero (t : Word) :
    ∀ (g : Word) (fb : List Char) (cnt : Char → Int) (c : Char),
      (∀ x ∈ fb, x = 'G' ∨ x = '_') → c ∉ t →
      markCount g (pass2 t g fb cnt) 'Y' c = 0
  | [], fb, cnt, c, hfb, hct => by simp [pass2, markCount]
  | g :: gs, [], cnt, c, hfb, hct => by simp [pass2, markCount]
  | g :: gs, f :: fs, cnt, c, hfb, hct => by
    have hfs : ∀ x ∈ fs, x = 'G' ∨ x = '_' := fun x hx => hfb x (List.mem_cons_of_mem f hx)
    simp only [pass2]
    split
    · next hguard =>
      have ih := pass2_markY_zero t gs fs (fun x => if x = g then cnt x - 1 else cnt x) c hfs hct
      have hgc : (g == c) = false := by
        have : ¬g = c := fun h => hct (h ▸ charList_contains_iff.mp hguard.2.1)
        simpa using this
      simp only [markCount, List.zip_cons_cons, List.filter_cons, hgc, Bool.false_and,
        Bool.false_eq_true, if_false] at ih ⊢
      exact ih
    · next hguard =>
      have ih := pass2_markY_zero t gs fs cnt c hfs hct
      have hfY : (f == 'Y') = false := by
        rcases hfb f (List.mem_cons_self f fs) with rfl | rfl <;> decide
      simp only [markCount, List.zip_cons_cons, List.filter_cons, hfY, Bool.and_false,
        Bool.false_eq_true, if_false] at ih ⊢
      exact ih

theorem pass2_gray (t : Word) :
    ∀ (g : Word) (fb : List Char) (cnt : Char → Int) (c : Char) (i : Nat),
      (∀ x ∈ fb, x = 'G' ∨ x = '_') →
      (pass2 t g fb cnt)[i]? = some '_' → g[i]? = some c →
      c ∉ t ∨ cnt c ≤ (markCount g (pass2 t g fb cnt) 'Y' c : Int)
  | [], fb, cnt, c, i, hfb => by simp [pass2]
  | g :: gs, [], cnt, c, i, hfb => by simp [pass2]
  | g :: gs, f :: fs, cnt, c, i, hfb => by
    have hfs : ∀ x ∈ fs, x = 'G' ∨ x = '_' := fun x hx => hfb x (List.mem_cons_of_mem f hx)
    simp only [pass2]
    split
    · next hguard =>
      cases i with
      | zero =>
        intro h
        have hY : ('Y' : Char) = '_' := by simp at h
        exact absurd hY (by decide)
      | succ j =>
        intro hout hg
        rcases pass2_gray t gs fs (fun x => if x = g then cnt x - 1 else cnt x) c j hfs
            (by simpa using hout) (by simpa using hg) with h | h
        · exact Or.inl h
        · right
          by_cases hgc : g = c
          · subst hgc
            simp only [markCount, List.zip_cons_cons, List.filter_cons, beq_self_eq_true,
              Bool.and_self, if_true, List.length_cons]
            simp only [markCount, if_pos rfl] at h
            push_cast at h ⊢
            omega
          · have hb : (g == c) = false := by simpa using hgc
            have hcg : ¬c = g := fun hx => hgc hx.symm
            simp only [markCount, List.zip_cons_cons, List.filter_cons, hb, Bool.false_and,
              Bool.false_eq_true, if_false]
            simpa [markCount, if_neg hcg] using h
    · next hguard =>
      cases i with
      | zero =>
        intro hout hg
        have hf : f = '_' := by simpa using hout
        have hgc : g = c := by simpa using hg
        subst hgc
        subst hf
        by_cases hct : g ∈ t
        · right
          have hcont : t.contains g = true := charList_contains_iff.mpr hct
          have hle : cnt g ≤ 0 := by
            by_contra hpos
            exact hguard ⟨rfl, hcont, by omega⟩
          exact le_trans hle (Int.ofNat_nonneg _)
        · exact Or.inl hct
      | succ j =>
        intro hout hg
        rcases pass2_gray t gs fs cnt c j hfs (by simpa using hout) (by simpa using hg)
          with h | h
        · exact Or.inl h
        · right
          have hfY : (f == 'Y') = false := by
            rcases hfb f (List.mem_cons_self f fs) with rfl | rfl <;> decide
          simp only [markCount, List.zip_cons_cons, List.filter_cons, hfY, Bool.and_false,
            Bool.false_eq_true, if_false]
          simpa [markCount] using h

theorem pass1_markG :
    ∀ (g t : Word) (cnt : Char → Int) (c : Char),
      markCount g (pass1 g t cnt).1 'G' c = matchCount g t c
  | [], t, cnt, c => by simp [pass1, markCount, matchCount]
  | g :: gs, [], cnt, c => by simp [pass1, markCount, matchCount]
  | g :: gs, t :: ts, cnt, c => by
    by_cases hgt : g = t
    · subst hgt
      have h1 : pass1 (g :: gs) (g :: ts) cnt =
          ('G' :: (pass1 gs ts fun x => if x = g then cnt x - 1 else cnt x).1,
            (pass1 gs ts fun x => if x = g then cnt x - 1 else cnt x).2) := by
        simp [pass1]
      rw [h1]
      have ih := pass1_markG gs ts (fun x => if x = g then cnt x - 1 else cnt x) c
      simp only [markCount, matchCount, List.zip_cons_cons, List.filter_cons,
        beq_self_eq_true, Bool.true_and, Bool.and_true] at ih ⊢
      cases hc : (g == c) <;> simp [hc, ih]
    · have h1 : pass1 (g :: gs) (t :: ts) cnt =
          ('_' :: (pass1 gs ts cnt).1, (pass1 gs ts cnt).2) := by
        simp [pass1, hgt]
      rw [h1]
      have hb : (g == t) = false := by simpa using hgt
      have hUG : ('_' == 'G') = false := by decide
      have ih := pass1_markG gs ts cnt c
      simp only [markCount, matchCount, List.zip_cons_cons, List.filter_cons, hb, hUG,
        Bool.false_and, Bool.and_false, Bool.false_eq_true, if_false] at ih ⊢
      exact ih

theorem charAt_eq_of_getElem? {w : Word} {i : Nat} {a : Char} (h : w[i]? = some a) :
    charAt w i = a := by
  obtain ⟨hlt, hval⟩ := List.getElem?_eq_some_iff.mp h
  unfold charAt
  rw [List.getD_eq_getElem w '?' hlt]
  exact hval

theorem charAt_eq_getElem {w : Word} {i : Nat} (h : i < w.length) :
    charAt w i = w[i] := by
  unfold charAt
  exact List.getD_eq_getElem w '?' h

theorem enumFrom_filter_charAt_length (p : Char → Char → Bool) :
    ∀ (fb : List Char) (n : Nat) (G : Word), n + fb.length ≤ G.length →
      ((fb.enumFrom n).filter (fun is => p (charAt G is.1) is.2)).length =
        (((G.drop n).zip fb).filter (fun q => p q.1 q.2)).length
  | [], n, G, h => by simp
  | f :: fs, n, G, h => by
    have hn : n < G.length := by simp only [List.length_cons] at h; omega
    rw [List.enumFrom_cons, List.drop_eq_getElem_cons hn]
    simp only [List.zip_cons_cons, List.filter_cons]
    have hAt : charAt G n = G[n] := by
      unfold charAt; exact List.getD_eq_getElem G '?' hn
    have ih := enumFrom_filter_charAt_length p fs (n + 1) G
      (by simp only [List.length_cons] at h; omega)
    rw [hAt]
    cases hp : p G[n] f <;> simp [hp, ih]

theorem filter_gy_split :
    ∀ (l : List (Char × Char)) (c : Char),
      (l.filter (fun q => (q.2 == 'G' || q.2 == 'Y') && q.1 == c)).length =
        (l.filter (fun q => q.1 == c && q.2 == 'G')).length +
          (l.filter (fun q => q.1 == c && q.2 == 'Y')).length
  | [], c => rfl
  | q :: l, c => by
    have ih := filter_gy_split l c
    simp only [List.filter_cons]
    cases h1 : (q.1 == c) <;> cases h2 : (q.2 == 'G') <;> cases h3 : (q.2 == 'Y') <;>
      first
        | (rw [beq_iff_eq] at h2 h3; rw [h2] at h3; exact absurd h3 (by decide))
        | (simp [h1, h2, h3, ih]; omega)
        | simp [h1, h2, h3, ih]



theorem greenYellowCount_eq (G : Word) (fb : List Char) (c : Char)
    (h : fb.length ≤ G.length) :
    AbstractStrategy.greenYellowCount G fb c =
      markCount G fb 'G' c + markCount G fb 'Y' c := by
  unfold AbstractStrategy.greenYellowCount
  rw [List.enum_eq_enumFrom,
    enumFrom_filter_charAt_length (fun a s => (s == 'G' || s == 'Y') && a == c) fb 0 G
      (by omega)]
  rw [List.drop_zero]
  unfold markCount
  exact filter_gy_split (G.zip fb) c

theorem mem_grayLetters {G : Word} {fb : List Char} {c : Char} :
    c ∈ AbstractStrategy.grayLetters G fb ↔
      ∃ i, fb[i]? = some '_' ∧ charAt G i = c := by
  unfold AbstractStrategy.grayLetters
  rw [List.mem_dedup, List.mem_filterMap]
  constructor
  · rintro ⟨is, his, hc⟩
    by_cases h : is.2 = '_'
    · rw [if_pos h] at hc
      refine ⟨is.1, ?_, Option.some.inj hc⟩
      have h2 := List.mem_enum_iff_getElem?.mp his
      rw [← h]
      exact h2
    · rw [if_neg h] at hc; cases hc
  · rintro ⟨i, hi, rfl⟩
    exact ⟨(i, '_'), List.mem_enum_iff_getElem?.mpr hi, by simp⟩

/-- The heart of filter soundness: a target word satisfies all three filtering
conditions of `_reduce_words_space` when the pattern is the one the two-pass
algorithm computed for that very target. -/
theorem target_survives (G t : Word) (hlen : G.length = t.length) :
    (∀ is ∈ (twoPassFeedback G t).enum, is.2 = 'G' → charAt G is.1 = charAt t is.1) ∧
    (∀ is ∈ (twoPassFeedback G t).enum, is.2 = 'Y' →
      t.contains (charAt G is.1) = true ∧ charAt G is.1 ≠ charAt t is.1) ∧
    (∀ c ∈ AbstractStrategy.grayLetters G (twoPassFeedback G t),
      (AbstractStrategy.greenYellowCount G (twoPassFeedback G t) c = 0 →
        t.contains c = false) ∧
      (AbstractStrategy.greenYellowCount G (twoPassFeedback G t) c ≠ 0 →
        t.count c ≤ AbstractStrategy.greenYellowCount G (twoPassFeedback G t) c)) := by
  have hfb1 : ∀ x ∈ (pass1 G t (initCount t)).1, x = 'G' ∨ x = '_' :=
    fun x hx => pass1_fst_mem G t _ x hx
  have hout : twoPassFeedback G t =
      pass2 t G (pass1 G t (initCount t)).1 (pass1 G t (initCount t)).2 := rfl
  have hlen1 : (pass1 G t (initCount t)).1.length = G.length := by
    rw [pass1_fst_length, hlen, Nat.min_self]
  have hlenOut : (twoPassFeedback G t).length = G.length := by
    rw [hout, pass2_length, hlen1, Nat.min_self]
  refine ⟨?_, ?_, ?_⟩
  · rintro ⟨i, s⟩ his hG
    simp only at hG
    subst hG
    dsimp only
    have h1 : (twoPassFeedback G t)[i]? = some 'G' := List.mem_enum_iff_getElem?.mp his
    rw [hout] at h1
    obtain ⟨hfbG, hi⟩ := (pass2_getElem?_G t G _ _ i hfb1).mp h1
    obtain ⟨a, ha, hb⟩ := (pass1_fst_getElem? G t _ i).mp hfbG
    rw [charAt_eq_of_getElem? ha, charAt_eq_of_getElem? hb]
  · rintro ⟨i, s⟩ his hY
    simp only at hY
    subst hY
    dsimp only
    have h1 : (twoPassFeedback G t)[i]? = some 'Y' := List.mem_enum_iff_getElem?.mp his
    rw [hout] at h1
    obtain ⟨a, ha, hcont, hfbU⟩ := pass2_getElem?_Y t G _ _ i hfb1 h1
    rw [charAt_eq_of_getElem? ha]
    refine ⟨hcont, ?_⟩
    intro hEq
    have hilt : i < G.length := (List.getElem?_eq_some_iff.mp ha).1
    have h2 : i < t.length := by omega
    have hti : t[i]? = some (charAt t i) := by
      rw [charAt_eq_getElem h2]
      exact List.getElem?_eq_getElem h2
    have hGpos : (pass1 G t (initCount t)).1[i]? = some 'G' :=
      (pass1_fst_getElem? G t _ i).mpr ⟨a, ha, by rw [hEq]; exact hti⟩
    rw [hGpos] at hfbU
    exact absurd (Option.some.inj hfbU) (by decide)
  · intro c hc
    obtain ⟨i, hfi, hci⟩ := mem_grayLetters.mp hc
    have hilt : i < G.length := by
      have h0 := (List.getElem?_eq_some_iff.mp hfi).1
      omega
    have hGi : G[i]? = some c := by
      rw [List.getElem?_eq_getElem hilt, ← charAt_eq_getElem hilt, hci]
    rw [hout] at hfi
    have hgyb : AbstractStrategy.greenYellowCount G (twoPassFeedback G t) c =
        matchCount G t c +
          markCount G (pass2 t G (pass1 G t (initCount t)).1 (pass1 G t (initCount t)).2)
            'Y' c := by
      rw [greenYellowCount_eq G _ c (by omega), hout, pass2_markG, pass1_markG]
    rcases pass2_gray t G _ _ c i hfb1 hfi hGi with hnot | hle
    · have hcontf : t.contains c = false := by
        cases h : t.contains c with
        | false => rfl
        | true => exact absurd (charList_contains_iff.mp h) hnot
      have hY0 := pass2_markY_zero t G (pass1 G t (initCount t)).1
        (pass1 G t (initCount t)).2 c hfb1 hnot
      have hcnt0 : t.count c = 0 := List.count_eq_zero.mpr hnot
      have hmle := matchCount_le_count G t c
      have hgy0 : AbstractStrategy.greenYellowCount G (twoPassFeedback G t) c = 0 := by
        rw [hgyb, hY0]
        omega
      exact ⟨fun _ => hcontf, fun h => absurd hgy0 h⟩
    · have hinit : initCount t c = (t.count c : Int) := rfl
      rw [pass1_snd, hinit] at hle
      have hcount :
          t.count c ≤ AbstractStrategy.greenYellowCount G (twoPassFeedback G t) c := by
        rw [hgyb]
        omega
      refine ⟨?_, fun _ => hcount⟩
      intro h0
      have hcnt0 : t.count c = 0 := by omega
      cases h : t.contains c with
      | false => rfl
      | true => exact absurd (charList_contains_iff.mp h) (List.count_eq_zero.mp hcnt0)

section FoldFilter

/-- A left fold whose every step shrinks the list (as the filtering passes of
`_reduce_words_space` do) produces a sublist of its start. -/
theorem foldl_shrink_sublist {α γ : Type} (step : List γ → α → List γ)
    (h : ∀ sp a, (step sp a).Sublist sp) :
    ∀ (l : List α) (s : List γ), (l.foldl step s).Sublist s := by
  intro l
  induction l with
  | nil => intro s; exact List.Sublist.refl s
  | cons a l ih =>
    intro s
    exact (ih (step s a)).trans (h s a)

/-- Membership in a left fold of filtering steps: an element survives iff it
was present at the start and satisfies the condition of every step. -/
theorem mem_foldl_shrink {α γ : Type} (step : List γ → α → List γ)
    (R : α → γ → Prop)
    (h : ∀ sp a x, x ∈ step sp a ↔ x ∈ sp ∧ R a x) :
    ∀ (l : List α) (s : List γ) (x : γ), x ∈ l.foldl step s ↔ x ∈ s ∧ ∀ a ∈ l, R a x := by
  intro l
  induction l with
  | nil => intro s x; simp
  | cons a l ih =>
    intro s x
    rw [List.foldl_cons, ih (step s a) x, h s a x]
    constructor
    · rintro ⟨⟨hx, hr⟩, hall⟩
      exact ⟨hx, by intro b hb; rcases List.mem_cons.mp hb with h1 | h2
                    · exact h1 ▸ hr
                    · exact hall b h2⟩
    · rintro ⟨hx, hall⟩
      exact ⟨⟨hx, hall a (List.mem_cons_self a l)⟩, fun b hb => hall b (List.mem_cons_of_mem a hb)⟩

end FoldFilter

namespace AbstractStrategy

/-- The result of `_reduce_words_space` is a sublist of its input pool. -/
theorem reduceWordsSpace_sublist (guess : Word) (P : List Word) (f : List Char) :
    (reduceWordsSpace guess P f).Sublist P := by
  unfold reduceWordsSpace
  refine ((foldl_shrink_sublist _ ?_ _ _).trans
    ((foldl_shrink_sublist _ ?_ _ _).trans (foldl_shrink_sublist _ ?_ _ _))) <;>
    intro sp a <;> dsimp only <;> split <;>
      first
        | exact List.filter_sublist sp
        | exact List.Sublist.refl sp

/-- Characterisation of membership in the output of `_reduce_words_space`:
a word survives iff it was in the pool and satisfies the green, yellow,
and gray conditions of the three passes. -/
theorem mem_reduceWordsSpace {guess : Word} {P : List Word} {f : List Char} {w : Word} :
    w ∈ reduceWordsSpace guess P f ↔
      w ∈ P ∧
      (∀ is ∈ f.enum, is.2 = 'G' → charAt (lowerStr guess) is.1 = charAt w is.1) ∧
      (∀ is ∈ f.enum, is.2 = 'Y' →
        w.contains (charAt (lowerStr guess) is.1) = true ∧
          charAt (lowerStr guess) is.1 ≠ charAt w is.1) ∧
      (∀ c ∈ grayLetters (lowerStr guess) f,
        (greenYellowCount (lowerStr guess) f c = 0 → w.contains c = false) ∧
        (greenYellowCount (lowerStr guess) f c ≠ 0 →
          w.count c ≤ greenYellowCount (lowerStr guess) f c)) := by
  unfold reduceWordsSpace
  rw [mem_foldl_shrink _
      (fun c w => (greenYellowCount (lowerStr guess) f c = 0 → w.contains c = false) ∧
        (greenYellowCount (lowerStr guess) f c ≠ 0 →
          w.count c ≤ greenYellowCount (lowerStr guess) f c))
      ?_]
  · rw [mem_foldl_shrink _
        (fun is w => is.2 = 'Y' →
          w.contains (charAt (lowerStr guess) is.1) = true ∧
            charAt (lowerStr guess) is.1 ≠ charAt w is.1) ?_]
    · rw [mem_foldl_shrink _
          (fun is w => is.2 = 'G' → charAt (lowerStr guess) is.1 = charAt w is.1) ?_]
      · tauto
      · intro sp a x
        dsimp only
        split
        · next hG =>
          rw [List.mem_filter]
          simp only [beq_iff_eq, hG]
          tauto
        · next hG => simp [hG]
    · intro sp a x
      dsimp only
      split
      · next hY =>
        rw [List.mem_filter]
        simp only [Bool.and_eq_true, Bool.not_eq_true', beq_eq_false_iff_ne, ne_eq, hY]
        tauto
      · next hY => simp [hY]
  · intro sp a x
    dsimp only
    split
    · next h0 =>
      rw [List.mem_filter]
      simp only [Bool.not_eq_true', h0]
      tauto
    · next h0 =>
      rw [List.mem_filter]
      simp only [Bool.not_eq_true', decide_eq_false_iff_not, not_lt, h0]
      tauto

end AbstractStrategy

/-- If `f` is exactly the feedback `_generate_feedback(g, t)` computes, a
lowercase target `t` of the pool survives `_reduce_words_space(g, P, f)`. -/
theorem mem_reduce_of_generateFeedback {g t : Word} {P : List Word} {f : List Char}
    (hlen : g.length = t.length) (hlow : lowerStr t = t) (htP : t ∈ P)
    (hf : AbstractStrategy.generateFeedback g t = f) :
    t ∈ AbstractStrategy.reduceWordsSpace g P f := by
  subst hf
  rw [AbstractStrategy.mem_reduceWordsSpace]
  have hGlen : (lowerStr g).length = t.length := by
    simpa [lowerStr] using hlen
  have hcore := target_survives (lowerStr g) t hGlen
  unfold AbstractStrategy.generateFeedback
  rw [hlow]
  exact ⟨htP, hcore.1, hcore.2.1, hcore.2.2⟩

theorem zip_filter_fst_le :
    ∀ (g fb : List Char) (c : Char) (p : Char × Char → Bool),
      ((g.zip fb).filter (fun q => p q && q.1 == c)).length ≤ g.count c
  | [], fb, c, p => by simp
  | g :: gs, [], c, p => by simp
  | g :: gs, f :: fs, c, p => by
    have ih := zip_filter_fst_le gs fs c p
    simp only [List.zip_cons_cons, List.filter_cons, List.count_cons]
    cases hp : (p (g, f) && g == c) with
    | false =>
      simp only [hp, Bool.false_eq_true, if_false]
      split <;> omega
    | true =>
      have hgc : (g == c) = true := (Bool.and_eq_true_iff.mp hp).2
      rw [beq_iff_eq] at hgc
      subst hgc
      simp only [hp, if_true, List.length_cons, beq_self_eq_true]
      omega

theorem markCount_GY_le :
    ∀ (g fb : List Char) (c : Char),
      markCount g fb 'G' c + markCount g fb 'Y' c ≤ g.count c := by
  intro g fb c
  unfold markCount
  rw [← filter_gy_split]
  exact zip_filter_fst_le g fb c (fun q => q.2 == 'G' || q.2 == 'Y')

/-- **C2** Soundness of filtering: for every pool and every 5-letter
(lowercase) guess and target with target in the pool, the target is a
member of `reduce(guess, pool, feedback(guess, target))` — filtering by
the pattern the target itself produced never removes the target. -/
theorem claim2_filter_soundness (g t : Word) (P : List Word)
    (hg : g.length = 5) (ht : t.length = 5) (hlow : lowerStr t = t) (htP : t ∈ P) :
    t ∈ AbstractStrategy.reduceWordsSpace g P (AbstractStrategy.generateFeedback g t) :=
  mem_reduce_of_generateFeedback (by omega) hlow htP rfl

theorem claim2_filter_soundness_witness :
    "abcde".toList ∈ AbstractStrategy.reduceWordsSpace "aabzz".toList
      ["zzzzz".toList, "abcde".toList]
      (AbstractStrategy.generateFeedback "aabzz".toList "abcde".toList) :=
  claim2_filter_soundness _ _ _ (by decide) (by decide) (by decide) (by decide)

/-- **C1 counterexample**: the claimed equivalence
`target ∈ reduce(g, P, f) ↔ target ∈ P ∧ feedback(g, target) = f` fails
left-to-right: with `g = "aabzz"`, `P = ["abfgh"]`, `f = "GYY__"`, the word
`"abfgh"` survives the filter although its recomputed feedback is
`"G_Y__" ≠ f` (the yellow pass only demands `'a' ∈ word`, not a second
`'a'`). -/
theorem claim1_counterexample :
    "abfgh".toList ∈ AbstractStrategy.reduceWordsSpace "aabzz".toList
      ["abfgh".toList] "GYY__".toList ∧
    ¬("abfgh".toList ∈ ["abfgh".toList] ∧
      AbstractStrategy.generateFeedback "aabzz".toList "abfgh".toList =
        "GYY__".toList) := by
  decide

/-- **C1 (amended)** For every candidate pool `P`, 5-letter lowercase guess
`g` and target word, and observed pattern `f`: if the target is in `P` and
`feedback(g, target) = f` then the target is in `reduce(g, P, f)` (the
right-to-left direction of the claimed equivalence; the left-to-right
direction is false, see the counterexample — the filter may keep words
whose recomputed feedback differs from `f`). -/
theorem claim1_amended_filter_keeps_matching (g t : Word) (P : List Word) (f : List Char)
    (hg : g.length = 5) (ht : t.length = 5) (hlow : lowerStr t = t)
    (htP : t ∈ P) (hf : AbstractStrategy.generateFeedback g t = f) :
    t ∈ AbstractStrategy.reduceWordsSpace g P f :=
  mem_reduce_of_generateFeedback (by omega) hlow htP hf

theorem claim1_amended_witness :
    "edcba".toList ∈ AbstractStrategy.reduceWordsSpace "abcde".toList
      ["edcba".toList, "aaaaa".toList] "YYGYY".toList :=
  claim1_amended_filter_keeps_matching _ _ _ _ (by decide) (by decide) (by decide)
    (by decide) (by decide)

/-- **C3** For every pair of 5-letter lowercase words (guess, target), the
feedback generator satisfies the two-pass multiset semantics: a position is
marked Correct (`'G'`) only where `guess[i] = target[i]`, and for every
letter the number of Correct plus Present (`'G'` plus `'Y'`) marks for that
letter is at most the minimum of its occurrence count in the guess and in
the target. -/
theorem claim3_two_pass_semantics (g t : Word)
    (hg : g.length = 5) (ht : t.length = 5)
    (hlg : lowerStr g = g) (hlt : lowerStr t = t) :
    (∀ (i : Nat) (a b : Char), g[i]? = some a → t[i]? = some b →
      (AbstractStrategy.generateFeedback g t)[i]? = some 'G' → a = b) ∧
    (∀ c : Char,
      markCount g (AbstractStrategy.generateFeedback g t) 'G' c +
        markCount g (AbstractStrategy.generateFeedback g t) 'Y' c ≤
          min (g.count c) (t.count c)) := by
  have hfb : AbstractStrategy.generateFeedback g t = twoPassFeedback g t := by
    unfold AbstractStrategy.generateFeedback
    rw [hlg, hlt]
  rw [hfb]
  have hfb1 : ∀ x ∈ (pass1 g t (initCount t)).1, x = 'G' ∨ x = '_' :=
    fun x hx => pass1_fst_mem g t _ x hx
  have hout : twoPassFeedback g t =
      pass2 t g (pass1 g t (initCount t)).1 (pass1 g t (initCount t)).2 := rfl
  constructor
  · intro i a b ha hb hG
    rw [hout] at hG
    obtain ⟨hfbG, -⟩ := (pass2_getElem?_G t g _ _ i hfb1).mp hG
    obtain ⟨x, hx1, hx2⟩ := (pass1_fst_getElem? g t _ i).mp hfbG
    rw [ha] at hx1
    rw [hb] at hx2
    rw [Option.some.inj hx1, Option.some.inj hx2]
  · intro c
    refine le_min (markCount_GY_le g _ c) ?_
    have hmG : markCount g (twoPassFeedback g t) 'G' c = matchCount g t c := by
      rw [hout, pass2_markG, pass1_markG]
    have hmY := pass2_markY_le t g (pass1 g t (initCount t)).1
      (pass1 g t (initCount t)).2 c hfb1
    have hsnd := pass1_snd g t (initCount t) c
    have hinit : initCount t c = (t.count c : Int) := rfl
    rw [hsnd, hinit] at hmY
    have hmc := matchCount_le_count g t c
    rw [max_eq_left (by omega)] at hmY
    rw [hout] at hmG ⊢
    omega

theorem claim3_witness :
    (∀ (i : Nat) (a b : Char), "aabbc".toList[i]? = some a → "ccbba".toList[i]? = some b →
      (AbstractStrategy.generateFeedback "aabbc".toList "ccbba".toList)[i]? =
        some 'G' → a = b) ∧
    (∀ c : Char,
      markCount "aabbc".toList
          (AbstractStrategy.generateFeedback "aabbc".toList "ccbba".toList) 'G' c +
        markCount "aabbc".toList
          (AbstractStrategy.generateFeedback "aabbc".toList "ccbba".toList) 'Y' c ≤
          min ("aabbc".toList.count c) ("ccbba".toList.count c)) :=
  claim3_two_pass_semantics _ _ (by decide) (by decide) (by decide) (by decide)

/-- **C8** For every guess, pool, and pattern, the filter's output is a
subsequence of its input: `reduce(guess, pool, pattern)` contains only words
of `pool`, preserves their original relative order (it is a sublist), and its
length is at most the length of `pool`. -/
theorem claim8_reduce_sublist (guess : Word) (P : List Word) (f : List Char) :
    (AbstractStrategy.reduceWordsSpace guess P f).Sublist P ∧
      (∀ w ∈ AbstractStrategy.reduceWordsSpace guess P f, w ∈ P) ∧
      (AbstractStrategy.reduceWordsSpace guess P f).length ≤ P.length := by
  refine ⟨AbstractStrategy.reduceWordsSpace_sublist guess P f, ?_, ?_⟩
  · intro w hw
    exact (AbstractStrategy.reduceWordsSpace_sublist guess P f).mem hw
  · exact (AbstractStrategy.reduceWordsSpace_sublist guess P f).length_le


theorem pass1_self :
    ∀ (t : Word) (cnt : Char → Int), (pass1 t t cnt).1 = List.replicate t.length 'G' := by
  intro t
  induction t with
  | nil => intro cnt; simp [pass1]
  | cons x ts ih => intro cnt; simp [pass1, List.replicate_succ, ih]

theorem pass2_no_underscore (t : Word) :
    ∀ (g : Word) (fb : List Char) (cnt : Char → Int),
      (∀ x ∈ fb, x ≠ '_') → g.length = fb.length → pass2 t g fb cnt = fb
  | [], [], cnt, hfb, hlen => by simp [pass2]
  | [], f :: fs, cnt, hfb, hlen => by simp at hlen
  | g :: gs, [], cnt, hfb, hlen => by simp at hlen
  | g :: gs, f :: fs, cnt, hfb, hlen => by
    have hf : f ≠ '_' := hfb f (List.mem_cons_self f fs)
    simp only [pass2]
    rw [if_neg (by intro h; exact hf h.1)]
    rw [pass2_no_underscore t gs fs cnt
      (fun x hx => hfb x (List.mem_cons_of_mem f hx)) (by simpa using hlen)]

/-- For equal-length 5-letter words, the two-pass feedback is all-green iff
the words are equal. -/
theorem twoPassFeedback_all_green_iff {g t : Word} (hg : g.length = 5) (ht : t.length = 5) :
    twoPassFeedback g t = ['G', 'G', 'G', 'G', 'G'] ↔ g = t := by
  constructor
  · intro h
    have hfb1 : ∀ x ∈ (pass1 g t (initCount t)).1, x = 'G' ∨ x = '_' :=
      fun x hx => pass1_fst_mem g t _ x hx
    have hout : twoPassFeedback g t =
        pass2 t g (pass1 g t (initCount t)).1 (pass1 g t (initCount t)).2 := rfl
    apply List.ext_getElem?
    intro i
    by_cases hi : i < 5
    · have hfbi : (twoPassFeedback g t)[i]? = some 'G' := by
        rw [h]
        interval_cases i <;> rfl
      rw [hout] at hfbi
      obtain ⟨hfbG, -⟩ := (pass2_getElem?_G t g _ _ i hfb1).mp hfbi
      obtain ⟨a, ha, hb⟩ := (pass1_fst_getElem? g t _ i).mp hfbG
      rw [ha, hb]
    · rw [List.getElem?_eq_none (by omega), List.getElem?_eq_none (by omega)]
  · rintro rfl
    show pass2 g g (pass1 g g (initCount g)).1 (pass1 g g (initCount g)).2 =
      ['G', 'G', 'G', 'G', 'G']
    rw [pass1_self g, pass2_no_underscore g g _ _
      (by intro x hx; rw [List.eq_of_mem_replicate hx]; decide)
      (by simp), hg]
    rfl

theorem makeGuess_valid {game : Wordle} {guess : Word}
    (h1 : (lowerStr guess).length = game.wordLength)
    (h2 : isalphaStr (lowerStr guess) = true)
    (h3 : game.isValidWord (lowerStr guess) = true) :
    game.makeGuess guess =
      ((lowerStr guess == game.targetWord,
        twoPassFeedback (lowerStr guess) game.targetWord, ""),
       { game with
          attempts := game.attempts + 1,
          guesses := game.guesses ++ [lowerStr guess],
          feedbacks := game.feedbacks ++
            [twoPassFeedback (lowerStr guess) game.targetWord] }) := by
  unfold Wordle.makeGuess
  rw [if_neg (by simp [h1]), if_neg (by simp [h2]), if_neg (by simp [h3])]
  rfl

theorem makeGuess_error_state (game : Wordle) (guess : Word)
    (h : (game.makeGuess guess).1.2.2 ≠ "") :
    (game.makeGuess guess).2 = game := by
  unfold Wordle.makeGuess
  by_cases h1 : (lowerStr guess).length ≠ game.wordLength
  · rw [if_pos h1]
  · rw [if_neg h1]
    by_cases h2 : ¬ isalphaStr (lowerStr guess) = true
    · rw [if_pos h2]
    · rw [if_neg h2]
      by_cases h3 : ¬ game.isValidWord (lowerStr guess) = true
      · rw [if_pos h3]
      · exfalso
        apply h
        unfold Wordle.makeGuess
        rw [if_neg h1, if_neg h2, if_neg h3]

theorem makeGuess_targetWord (game : Wordle) (guess : Word) :
    ((game.makeGuess guess).2).targetWord = game.targetWord := by
  simp only [Wordle.makeGuess]
  split
  · rfl
  · split
    · rfl
    · split <;> rfl

theorem makeGuess_correct {game : Wordle} {guess : Word}
    (h : (game.makeGuess guess).1.1 = true) : lowerStr guess = game.targetWord := by
  simp only [Wordle.makeGuess] at h
  split at h
  · cases h
  · split at h
    · cases h
    · split at h
      · cases h
      · exact beq_iff_eq.mp h

/-- **C10** (implicit) For every guess that passes validation (5 lowercase
alphabetic letters, in the dictionary) and every 5-letter target,
`make_guess` returns `is_correct = true` iff the (lowercased) guess equals
the target word, which holds iff the returned feedback pattern is `'G'` at
every one of its five positions — the correctness flag and an all-Correct
pattern are always consistent. -/
theorem claim10_correct_iff_all_green (game : Wordle) (guess : Word)
    (hwl : game.wordLength = 5)
    (hg5 : (lowerStr guess).length = 5)
    (hga : isalphaStr (lowerStr guess) = true)
    (hgd : game.isValidWord (lowerStr guess) = true)
    (ht5 : game.targetWord.length = 5) :
    ((game.makeGuess guess).1.1 = true ↔ lowerStr guess = game.targetWord) ∧
    ((game.makeGuess guess).1.1 = true ↔
      (game.makeGuess guess).1.2.1 = ['G', 'G', 'G', 'G', 'G']) := by
  rw [makeGuess_valid (by omega) hga hgd]
  constructor
  · simp
  · simp only []
    rw [beq_iff_eq, twoPassFeedback_all_green_iff hg5 ht5]

theorem claim10_witness :
    ((gameC10.makeGuess "ABcde".toList).1.1 = true ↔
      lowerStr "ABcde".toList = gameC10.targetWord) ∧
    ((gameC10.makeGuess "ABcde".toList).1.1 = true ↔
      (gameC10.makeGuess "ABcde".toList).1.2.1 = ['G', 'G', 'G', 'G', 'G']) :=
  claim10_correct_iff_all_green _ _ (by decide) (by decide) (by decide) (by decide)
    (by decide)

/-- **C4 (amended)** An erroneous submission does not change the Game's
state (its internal attempt counter and histories are untouched), but it
does consume the solve loop's attempt budget: when the chosen guess draws a
non-empty error string, the iteration continues with the loop counter
already incremented (and the guess added to the previous-guess set), so
errors do reduce the number of guesses available. -/
theorem claim4_amended_error_consumes_solver_budget
    (choose : List Word → Nat → List Word → Word)
    (fuel : Nat) (pool : List Word) (attempts : Nat) (prev : List Word) (game : Wordle)
    (hlt : attempts < AbstractStrategy.solveMaxAttempts)
    (herr : (game.makeGuess (choose pool attempts prev)).1.2.2 ≠ "") :
    (game.makeGuess (choose pool attempts prev)).2 = game ∧
    AbstractStrategy.solveLoop choose (fuel + 1) pool attempts prev game =
      AbstractStrategy.solveLoop choose fuel pool (attempts + 1)
        (prev.insert (choose pool attempts prev)) game := by
  refine ⟨makeGuess_error_state _ _ herr, ?_⟩
  simp only [AbstractStrategy.solveLoop]
  rw [if_pos hlt, if_pos herr, makeGuess_error_state _ _ herr]

theorem claim4_amended_witness :
    (gameErr.makeGuess "aaaaa".toList).2 = gameErr ∧
    AbstractStrategy.solveLoop (fun _ _ _ => "aaaaa".toList) (5 + 1)
        ["aaaaa".toList] 0 [] gameErr =
      AbstractStrategy.solveLoop (fun _ _ _ => "aaaaa".toList) 5
        ["aaaaa".toList] 1 (([] : List Word).insert "aaaaa".toList) gameErr :=
  claim4_amended_error_consumes_solver_budget (fun _ _ _ => "aaaaa".toList) 5
    ["aaaaa".toList] 0 [] gameErr (by decide) (by decide)

/-- **C4 counterexample**: against `gameErr`, the constant strategy
`"aaaaa"` (not in the game's dictionary) errors on every submission; the
solve loop nevertheless spends its whole budget and stops after counting 6
attempts while the game records zero error-free submissions — refuting
"the number of attempts counted toward the maximum (6) equals the number
of error-free guess submissions". -/
theorem claim4_counterexample :
    (AbstractStrategy.solve ["aaaaa".toList] (fun _ _ _ => "aaaaa".toList) gameErr).1.2 = 6 ∧
    ((AbstractStrategy.solve ["aaaaa".toList] (fun _ _ _ => "aaaaa".toList) gameErr).2).guesses.length = 0 ∧
    (AbstractStrategy.solve ["aaaaa".toList] (fun _ _ _ => "aaaaa".toList) gameErr).1.2 ≠
      ((AbstractStrategy.solve ["aaaaa".toList]
        (fun _ _ _ => "aaaaa".toList) gameErr).2).guesses.length := by
  refine ⟨rfl, rfl, by decide⟩

theorem solveLoop_le (choose : List Word → Nat → List Word → Word) :
    ∀ (fuel : Nat) (pool : List Word) (attempts : Nat) (prev : List Word) (game : Wordle),
      attempts + fuel ≤ 6 →
      (AbstractStrategy.solveLoop choose fuel pool attempts prev game).1.2 ≤ 6 ∧
      (∀ w, (AbstractStrategy.solveLoop choose fuel pool attempts prev game).1.1 = some w →
        lowerStr w = game.targetWord)
  | 0, pool, attempts, prev, game, h => by
    refine ⟨show attempts ≤ 6 by omega, ?_⟩
    intro w hw
    exact Option.noConfusion hw
  | fuel + 1, pool, attempts, prev, game, h => by
    simp only [AbstractStrategy.solveLoop]
    split
    · next hlt =>
      split
      · next herr =>
        have ih := solveLoop_le choose fuel pool (attempts + 1)
          (prev.insert (choose pool attempts prev))
          ((game.makeGuess (choose pool attempts prev)).2) (by omega)
        refine ⟨ih.1, ?_⟩
        intro w hw
        rw [← makeGuess_targetWord game (choose pool attempts prev)]
        exact ih.2 w hw
      · next herr =>
        split
        · next hcorr =>
          refine ⟨show attempts + 1 ≤ 6 by
            have : attempts < AbstractStrategy.solveMaxAttempts := hlt
            have h6 : AbstractStrategy.solveMaxAttempts = 6 := rfl
            omega, ?_⟩
          intro w hw
          have hw' : choose pool attempts prev = w := Option.some.inj hw
          rw [← hw']
          exact makeGuess_correct hcorr
        · next hncorr =>
          split
          · next hempty =>
            refine ⟨show attempts + 1 ≤ 6 by
              have : attempts < AbstractStrategy.solveMaxAttempts := hlt
              have h6 : AbstractStrategy.solveMaxAttempts = 6 := rfl
              omega, ?_⟩
            intro w hw
            exact Option.noConfusion hw
          · next hnempty =>
            split
            · next hshort =>
              split
              · next hmem =>
                have ih := solveLoop_le choose fuel
                  (AbstractStrategy.reduceWordsSpace (choose pool attempts prev) pool
                    (game.makeGuess (choose pool attempts prev)).1.2.1)
                  (attempts + 1) (prev.insert (choose pool attempts prev))
                  ((game.makeGuess (choose pool attempts prev)).2) (by omega)
                refine ⟨ih.1, ?_⟩
                intro w hw
                rw [← makeGuess_targetWord game (choose pool attempts prev)]
                exact ih.2 w hw
              · next hnmem =>
                have h6 : AbstractStrategy.solveMaxAttempts = 6 := rfl
                have hlt2 : attempts + 1 < 6 := by
                  have := hshort.2
                  omega
                split
                · next hcorr2 =>
                  refine ⟨show attempts + 1 + 1 ≤ 6 by omega, ?_⟩
                  intro w hw
                  have hw' := Option.some.inj hw
                  rw [← hw']
                  rw [← makeGuess_targetWord game (choose pool attempts prev)]
                  exact makeGuess_correct hcorr2
                · next hncorr2 =>
                  refine ⟨show attempts + 1 + 1 ≤ 6 by omega, ?_⟩
                  intro w hw
                  exact Option.noConfusion hw
            · next hnshort =>
              have ih := solveLoop_le choose fuel
                (AbstractStrategy.reduceWordsSpace (choose pool attempts prev) pool
                  (game.makeGuess (choose pool attempts prev)).1.2.1)
                (attempts + 1) (prev.insert (choose pool attempts prev))
                ((game.makeGuess (choose pool attempts prev)).2) (by omega)
              refine ⟨ih.1, ?_⟩
              intro w hw
              rw [← makeGuess_targetWord game (choose pool attempts prev)]
              exact ih.2 w hw
    · next hge =>
      refine ⟨show attempts ≤ 6 by omega, ?_⟩
      intro w hw
      exact Option.noConfusion hw

/-- **C9** Every `solve` invocation terminates after a bounded sequential
loop (the loop is a total function whose fuel, 6, bounds its iterations),
submitting at most 6 guesses to the Game in total — the returned attempt
count, incremented exactly once per `make_guess` call, normal and
short-circuit submissions alike, never exceeds 6 — and a solved word is
returned only for a correct guess: whenever the budget is spent without a
correct guess the result carries `none` (a failure), not a word. -/
theorem claim9_solve_bounded (vocabulary : List Word)
    (choose : List Word → Nat → List Word → Word) (game : Wordle) :
    (AbstractStrategy.solve vocabulary choose game).1.2 ≤ 6 ∧
    (∀ w, (AbstractStrategy.solve vocabulary choose game).1.1 = some w →
      lowerStr w = game.targetWord) :=
  solveLoop_le choose AbstractStrategy.solveMaxAttempts vocabulary 0 [] game (by decide)

theorem claim9_witness :
    ((AbstractStrategy.solve ["bbbbb".toList] (fun _ _ _ => "bbbbb".toList) gameErr).1.1 =
      some "bbbbb".toList) ∧
    lowerStr "bbbbb".toList = gameErr.targetWord :=
  ⟨by decide, (claim9_solve_bounded ["bbbbb".toList] (fun _ _ _ => "bbbbb".toList)
      gameErr).2 "bbbbb".toList (by decide)⟩

theorem makeGuess_ok_guesses {game : Wordle} {w : Word}
    (h : (game.makeGuess w).1.2.2 = "") :
    ((game.makeGuess w).2).guesses = game.guesses ++ [lowerStr w] := by
  by_cases h1 : (lowerStr w).length ≠ game.wordLength
  · exfalso
    have hmsg : (game.makeGuess w).1.2.2 = "Invalid word length" := by
      simp only [Wordle.makeGuess]
      rw [if_pos h1]
    rw [hmsg] at h
    exact absurd h (by decide)
  · by_cases h2 : ¬ isalphaStr (lowerStr w) = true
    · exfalso
      have hmsg : (game.makeGuess w).1.2.2 = "Word contains non-alphabetic characters" := by
        simp only [Wordle.makeGuess]
        rw [if_neg h1, if_pos h2]
      rw [hmsg] at h
      exact absurd h (by decide)
    · by_cases h3 : ¬ game.isValidWord (lowerStr w) = true
      · exfalso
        have hmsg : (game.makeGuess w).1.2.2 = "Word not in dictionary" := by
          simp only [Wordle.makeGuess]
          rw [if_neg h1, if_neg h2, if_pos h3]
        rw [hmsg] at h
        exact absurd h (by decide)
      · simp only [Wordle.makeGuess]
        rw [if_neg h1, if_neg h2, if_neg h3]

theorem makeGuess_guesses_append (game : Wordle) (w : Word) :
    ∃ l, ((game.makeGuess w).2).guesses = game.guesses ++ l := by
  simp only [Wordle.makeGuess]
  split
  · exact ⟨[], by simp⟩
  · split
    · exact ⟨[], by simp⟩
    · split
      · exact ⟨[], by simp⟩
      · exact ⟨[lowerStr w], rfl⟩

theorem solveLoop_guesses_append (choose : List Word → Nat → List Word → Word) :
    ∀ (fuel : Nat) (pool : List Word) (attempts : Nat) (prev : List Word) (game : Wordle),
      ∃ l, ((AbstractStrategy.solveLoop choose fuel pool attempts prev game).2).guesses =
        game.guesses ++ l
  | 0, pool, attempts, prev, game => ⟨[], by simp [AbstractStrategy.solveLoop]⟩
  | fuel + 1, pool, attempts, prev, game => by
    simp only [AbstractStrategy.solveLoop]
    split
    · split
      · obtain ⟨l1, h1⟩ := makeGuess_guesses_append game (choose pool attempts prev)
        obtain ⟨l2, h2⟩ := solveLoop_guesses_append choose fuel pool (attempts + 1)
          (prev.insert (choose pool attempts prev))
          ((game.makeGuess (choose pool attempts prev)).2)
        exact ⟨l1 ++ l2, by rw [h2, h1, List.append_assoc]⟩
      · split
        · exact makeGuess_guesses_append game (choose pool attempts prev)
        · split
          · exact makeGuess_guesses_append game (choose pool attempts prev)
          · split
            · split
              · obtain ⟨l1, h1⟩ := makeGuess_guesses_append game (choose pool attempts prev)
                obtain ⟨l2, h2⟩ := solveLoop_guesses_append choose fuel
                  (AbstractStrategy.reduceWordsSpace (choose pool attempts prev) pool
                    (game.makeGuess (choose pool attempts prev)).1.2.1)
                  (attempts + 1) (prev.insert (choose pool attempts prev))
                  ((game.makeGuess (choose pool attempts prev)).2)
                exact ⟨l1 ++ l2, by rw [h2, h1, List.append_assoc]⟩
              · obtain ⟨l1, h1⟩ := makeGuess_guesses_append game (choose pool attempts prev)
                obtain ⟨l2, h2⟩ := makeGuess_guesses_append
                  ((game.makeGuess (choose pool attempts prev)).2)
                  ((AbstractStrategy.reduceWordsSpace (choose pool attempts prev) pool
                    (game.makeGuess (choose pool attempts prev)).1.2.1).headD [])
                split
                · exact ⟨l1 ++ l2, by rw [h2, h1, List.append_assoc]⟩
                · exact ⟨l1 ++ l2, by rw [h2, h1, List.append_assoc]⟩
            · obtain ⟨l1, h1⟩ := makeGuess_guesses_append game (choose pool attempts prev)
              obtain ⟨l2, h2⟩ := solveLoop_guesses_append choose fuel
                (AbstractStrategy.reduceWordsSpace (choose pool attempts prev) pool
                  (game.makeGuess (choose pool attempts prev)).1.2.1)
                (attempts + 1) (prev.insert (choose pool attempts prev))
                ((game.makeGuess (choose pool attempts prev)).2)
              exact ⟨l1 ++ l2, by rw [h2, h1, List.append_assoc]⟩
    · exact ⟨[], by simp⟩

theorem solveLoop_first_guess (choose : List Word → Nat → List Word → Word)
    (fuel : Nat) (pool : List Word) (attempts : Nat) (prev : List Word) (game : Wordle)
    (hlt : attempts < AbstractStrategy.solveMaxAttempts)
    (hg0 : game.guesses = [])
    (hok : (game.makeGuess (choose pool attempts prev)).1.2.2 = "") :
    ((AbstractStrategy.solveLoop choose (fuel + 1) pool attempts prev game).2).guesses.head? =
      some (lowerStr (choose pool attempts prev)) := by
  have hgu : ((game.makeGuess (choose pool attempts prev)).2).guesses =
      [lowerStr (choose pool attempts prev)] := by
    rw [makeGuess_ok_guesses hok, hg0]
    rfl
  simp only [AbstractStrategy.solveLoop]
  rw [if_pos hlt, if_neg (fun hne => hne hok)]
  split
  · show ((game.makeGuess (choose pool attempts prev)).2).guesses.head? = _
    rw [hgu]
    rfl
  · split
    · show ((game.makeGuess (choose pool attempts prev)).2).guesses.head? = _
      rw [hgu]
      rfl
    · split
      · split
        · obtain ⟨l, hl⟩ := solveLoop_guesses_append choose fuel
            (AbstractStrategy.reduceWordsSpace (choose pool attempts prev) pool
              (game.makeGuess (choose pool attempts prev)).1.2.1)
            (attempts + 1) (prev.insert (choose pool attempts prev))
            ((game.makeGuess (choose pool attempts prev)).2)
          rw [hl, hgu]
          rfl
        · obtain ⟨l, hl⟩ := makeGuess_guesses_append
            ((game.makeGuess (choose pool attempts prev)).2)
            ((AbstractStrategy.reduceWordsSpace (choose pool attempts prev) pool
              (game.makeGuess (choose pool attempts prev)).1.2.1).headD [])
          split
          · show (((game.makeGuess (choose pool attempts prev)).2).makeGuess
                ((AbstractStrategy.reduceWordsSpace (choose pool attempts prev) pool
                  (game.makeGuess (choose pool attempts prev)).1.2.1).headD [])).2.guesses.head? = _
            rw [hl, hgu]
            rfl
          · show (((game.makeGuess (choose pool attempts prev)).2).makeGuess
                ((AbstractStrategy.reduceWordsSpace (choose pool attempts prev) pool
                  (game.makeGuess (choose pool attempts prev)).1.2.1).headD [])).2.guesses.head? = _
            rw [hl, hgu]
            rfl
      · obtain ⟨l, hl⟩ := solveLoop_guesses_append choose fuel
          (AbstractStrategy.reduceWordsSpace (choose pool attempts prev) pool
            (game.makeGuess (choose pool attempts prev)).1.2.1)
          (attempts + 1) (prev.insert (choose pool attempts prev))
          ((game.makeGuess (choose pool attempts prev)).2)
        rw [hl, hgu]
        rfl

/-- **C5 (amended)** The candidate pool at the start of a `solve` invocation
is initialised to the strategy's `vocabulary` — the allowed-guesses list
loaded in `__init__` (`possible_words = self.vocabulary.copy()`) — not to
the possible-solutions word list: the strategy's first call receives
`vocabulary` at attempt index 0 with no previous guesses, and when the word
it picks from it is accepted by the Game, that word is the first guess the
Game records. -/
theorem claim5_amended_initial_pool_is_vocabulary (vocabulary : List Word)
    (choose : List Word → Nat → List Word → Word) (game : Wordle)
    (hg0 : game.guesses = [])
    (hok : (game.makeGuess (choose vocabulary 0 [])).1.2.2 = "") :
    ((AbstractStrategy.solve vocabulary choose game).2).guesses.head? =
      some (lowerStr (choose vocabulary 0 [])) :=
  solveLoop_first_guess choose 5 vocabulary 0 [] game (by decide) hg0 hok

theorem claim5_amended_witness :
    ((AbstractStrategy.solve ["ccccc".toList, "bbbbb".toList]
        (fun pool _ _ => pool.headD []) gameSub).2).guesses.head? =
      some (lowerStr (["ccccc".toList, "bbbbb".toList].headD [])) :=
  claim5_amended_initial_pool_is_vocabulary ["ccccc".toList, "bbbbb".toList]
    (fun pool _ _ => pool.headD []) gameSub (by decide) (by decide)

/-- **C5 counterexample**: `gameSub`'s possible-solutions list is
`["bbbbb"]`, a strict subset of the allowed list `["ccccc", "bbbbb"]`.  A
probe strategy that always proposes the head of the pool it is given makes
`"ccccc"` its first recorded guess — a word that is not in the
possible-solutions list at all — so the pool solve starts from is the
vocabulary, not the possible-solutions list the claim names. -/
theorem claim5_counterexample :
    ((AbstractStrategy.solve ["ccccc".toList, "bbbbb".toList]
        (fun pool _ _ => pool.headD []) gameSub).2).guesses.head? =
      some "ccccc".toList ∧
    "ccccc".toList ∉ gameSub.targetWordList := by
  refine ⟨by decide, by decide⟩

/-- **C6 counterexample**: at attempt index 0 the opener branch precedes
the singleton fast path, so with the pool `["abcde"]` the entropy strategy
returns the opener `'tares'`, not the sole pool word. -/
theorem claim6_counterexample :
    EntropyBasedStrategy.chooseBestGuess ["tares".toList, "abcde".toList] []
      ["abcde".toList] 0 = some "tares".toList ∧
    some "tares".toList ≠ some "abcde".toList :=
  ⟨rfl, by decide⟩

/-- **C6 (amended)** For every strategy variant and for every attempt index
other than 0 (where the fixed-opener branch takes precedence over the fast
path), if the candidate pool contains exactly one word, `choose_best_guess`
returns that sole word immediately, without scanning the vocabulary or
computing any scores. -/
theorem claim6_amended_singleton_fast_path (vocabulary previousGuesses : List Word)
    (w : Word) (attempts : Nat) (h : attempts ≠ 0) :
    EntropyBasedStrategy.chooseBestGuess vocabulary previousGuesses [w] attempts = some w ∧
    MinimaxBasedStrategy.chooseBestGuess vocabulary previousGuesses [w] attempts = some w ∧
    FrequencyBasedStrategy.chooseBestGuess vocabulary previousGuesses [w] attempts = some w ∧
    HybridStrategy.chooseBestGuess vocabulary previousGuesses [w] attempts = some w := by
  refine ⟨?_, ?_, ?_, ?_⟩
  · unfold EntropyBasedStrategy.chooseBestGuess
    rw [if_neg h, if_pos (by simp : ([w] : List Word).length = 1)]
    rfl
  · unfold MinimaxBasedStrategy.chooseBestGuess
    rw [if_neg h, if_pos (by simp : ([w] : List Word).length = 1)]
    rfl
  · unfold FrequencyBasedStrategy.chooseBestGuess
    rw [if_neg h, if_pos (by simp : ([w] : List Word).length = 1)]
    rfl
  · unfold HybridStrategy.chooseBestGuess
    rw [if_neg h, if_pos (by simp : ([w] : List Word).length = 1)]
    rfl

theorem claim6_amended_witness :
    EntropyBasedStrategy.chooseBestGuess [] [] ["abcde".toList] 1 = some "abcde".toList ∧
    MinimaxBasedStrategy.chooseBestGuess [] [] ["abcde".toList] 1 = some "abcde".toList ∧
    FrequencyBasedStrategy.chooseBestGuess [] [] ["abcde".toList] 1 = some "abcde".toList ∧
    HybridStrategy.chooseBestGuess [] [] ["abcde".toList] 1 = some "abcde".toList :=
  claim6_amended_singleton_fast_path [] [] "abcde".toList 1 (by decide)

theorem count_instance_eq (x : List Char) (l : List (List Char)) :
    @List.count _ List.instBEq x l = @List.count _ instBEqOfDecidableEq x l := by
  induction l with
  | nil => rfl
  | cons y l ih =>
    have e1 : (y == x) = decide (y = x) := by
      by_cases h : y = x
      · subst h
        simp
      · simp [h]
    have e2 : (@BEq.beq _ instBEqOfDecidableEq y x) = decide (y = x) := rfl
    rw [@List.count_cons _ List.instBEq, @List.count_cons _ instBEqOfDecidableEq, ih, e1, e2]

/-- Every expected-entropy score strictly beats the `-1` the scan starts
from: each summand is at least `-p·log2(1 + 1e-10)` and the probabilities
sum to 1, so the score is at least `-log2(1 + 1e-10) > -1` (and `0 > -1`
for an empty pool). -/
theorem expectedEntropy_gt_neg_one (possibleWords : List Word) (candidateWord : Word) :
    EntropyBasedStrategy.expectedEntropy possibleWords candidateWord > -1 := by
  unfold EntropyBasedStrategy.expectedEntropy
  dsimp only
  by_cases hnil : possibleWords = []
  · subst hnil
    norm_num
  · set pats := possibleWords.map
      (fun t => AbstractStrategy.generateFeedback candidateWord t) with hpats
    set N : ℝ := (possibleWords.length : ℝ) with hNdef
    have hN0 : 0 < N := by
      rw [hNdef]
      exact_mod_cast List.length_pos.mpr hnil
    set C : ℝ := Real.logb 2 (1 + 1e-10) with hCdef
    have hC1 : C < 1 := by
      rw [hCdef, Real.logb_lt_iff_lt_rpow (by norm_num) (by norm_num), Real.rpow_one]
      norm_num
    have hterm : ∀ p ∈ pats.dedup,
        (-C) * ((pats.count p : ℝ) / N) ≤
          -(((pats.count p : ℝ) / N) * Real.logb 2 (((pats.count p : ℝ) / N) + 1e-10)) := by
      intro p hp
      have hprob0 : 0 ≤ (pats.count p : ℝ) / N := by positivity
      have hprob1 : (pats.count p : ℝ) / N ≤ 1 := by
        rw [div_le_one hN0, hNdef]
        have hle : pats.count p ≤ pats.length := List.count_le_length p pats
        have hplen : pats.length = possibleWords.length := by
          rw [hpats, List.length_map]
        rw [hplen] at hle
        exact_mod_cast hle
      have hmono : Real.logb 2 (((pats.count p : ℝ) / N) + 1e-10) ≤ C := by
        rw [hCdef]
        exact Real.logb_le_logb_of_le (by norm_num) (by positivity) (by linarith)
      have hmul := mul_le_mul_of_nonneg_left hmono hprob0
      linarith
    have hsum := List.sum_le_sum hterm
    have hprobsum : (pats.dedup.map (fun p => (pats.count p : ℝ) / N)).sum = 1 := by
      have h1 : (pats.dedup.map (fun p => (pats.count p : ℝ) / N)).sum =
          (pats.dedup.map (fun p => (pats.count p : ℝ))).sum / N := by
        simp only [div_eq_mul_inv]
        rw [List.sum_map_mul_right]
      have h2 : (pats.dedup.map (fun p => (pats.count p : ℝ))).sum =
          (((pats.dedup.map (fun p => pats.count p)).sum : ℕ) : ℝ) := by
        rw [Nat.cast_list_sum, List.map_map]
        rfl
      have h3 : (pats.dedup.map (fun p => pats.count p)).sum = pats.length := by
        have hm := List.sum_map_count_dedup_eq_length pats
        have hcongr : pats.dedup.map (fun p => pats.count p) =
            pats.dedup.map (fun p => @List.count _ instBEqOfDecidableEq p pats) :=
          List.map_congr_left (fun p _ => count_instance_eq p pats)
        rw [hcongr]
        exact hm
      have h4 : pats.length = possibleWords.length := by
        rw [hpats, List.length_map]
      rw [h1, h2, h3, h4, ← hNdef]
      exact div_self hN0.ne'
    have hlow : ((pats.dedup.map (fun p => (-C) * ((pats.count p : ℝ) / N))).sum : ℝ) = -C := by
      rw [List.sum_map_mul_left, hprobsum, mul_one]
    rw [hlow] at hsum
    calc (-1 : ℝ) < -C := by linarith
    _ ≤ _ := hsum

/-- Behaviour of the entropy strategy's vocabulary scan: a returned word
comes from the scanned list and is not excluded, and the scan comes back
empty-handed only when every scanned word was excluded (any non-excluded
word scores above the initial `-1`). -/
theorem entropy_scan_spec (vocabulary previousGuesses possibleWords : List Word) :
    ∀ (l : List Word) (b : ℝ × Option Word),
      (∀ x ∈ l, x ∈ vocabulary) →
      (b.2 = none → b.1 = -1) →
      (∀ w, b.2 = some w → w ∈ vocabulary ∧ w ∉ previousGuesses) →
      (∀ w, (l.foldl (EntropyBasedStrategy.scanStep possibleWords previousGuesses) b).2 =
          some w → w ∈ vocabulary ∧ w ∉ previousGuesses) ∧
      ((l.foldl (EntropyBasedStrategy.scanStep possibleWords previousGuesses) b).2 = none →
        b.2 = none ∧ ∀ x ∈ l, x ∈ previousGuesses)
  | [], b, hsub, hnone, hsome => by
    refine ⟨fun w hw => hsome w hw, fun h => ⟨h, by simp⟩⟩
  | c :: l, b, hsub, hnone, hsome => by
    rw [List.foldl_cons]
    by_cases hc : c ∈ previousGuesses
    · have hstep : EntropyBasedStrategy.scanStep possibleWords previousGuesses b c = b := by
        simp only [EntropyBasedStrategy.scanStep]
        rw [if_pos hc]
      rw [hstep]
      have ih := entropy_scan_spec vocabulary previousGuesses possibleWords l b
        (fun x hx => hsub x (List.mem_cons_of_mem c hx)) hnone hsome
      refine ⟨ih.1, ?_⟩
      intro h
      obtain ⟨h0, hall⟩ := ih.2 h
      refine ⟨h0, ?_⟩
      intro x hx
      rcases List.mem_cons.mp hx with rfl | hx'
      · exact hc
      · exact hall x hx'
    · by_cases hgt : EntropyBasedStrategy.expectedEntropy possibleWords c > b.1
      · have hstep : EntropyBasedStrategy.scanStep possibleWords previousGuesses b c =
            (EntropyBasedStrategy.expectedEntropy possibleWords c, some c) := by
          simp only [EntropyBasedStrategy.scanStep]
          rw [if_neg hc, if_pos hgt]
        rw [hstep]
        have ih := entropy_scan_spec vocabulary previousGuesses possibleWords l
          (EntropyBasedStrategy.expectedEntropy possibleWords c, some c)
          (fun x hx => hsub x (List.mem_cons_of_mem c hx))
          (by intro h; cases h)
          (by
            intro w hw
            obtain rfl : c = w := Option.some.inj hw
            exact ⟨hsub c (List.mem_cons_self c l), hc⟩)
        refine ⟨ih.1, ?_⟩
        intro h
        obtain ⟨h0, -⟩ := ih.2 h
        cases h0
      · have hstep : EntropyBasedStrategy.scanStep possibleWords previousGuesses b c = b := by
          simp only [EntropyBasedStrategy.scanStep]
          rw [if_neg hc, if_neg hgt]
        rw [hstep]
        have ih := entropy_scan_spec vocabulary previousGuesses possibleWords l b
          (fun x hx => hsub x (List.mem_cons_of_mem c hx)) hnone hsome
        refine ⟨ih.1, ?_⟩
        intro h
        obtain ⟨h0, -⟩ := ih.2 h
        exfalso
        have hb1 := hnone h0
        have hgt' := expectedEntropy_gt_neg_one possibleWords c
        rw [hb1] at hgt
        exact hgt hgt'

/-- Behaviour of the minimax strategy's vocabulary scan: a returned word
comes from the scanned list and is not excluded, and the scan comes back
empty-handed only when every scanned word was excluded (any finite worst
case beats the initial `float('inf')`, modelled as `⊤`). -/
theorem minimax_scan_spec (vocabulary previousGuesses possibleWords : List Word) :
    ∀ (l : List Word) (b : WithTop Nat × Option Word),
      (∀ x ∈ l, x ∈ vocabulary) →
      (b.2 = none → b.1 = ⊤) →
      (∀ w, b.2 = some w → w ∈ vocabulary ∧ w ∉ previousGuesses) →
      (∀ w, (l.foldl (MinimaxBasedStrategy.scanStep possibleWords previousGuesses) b).2 =
          some w → w ∈ vocabulary ∧ w ∉ previousGuesses) ∧
      ((l.foldl (MinimaxBasedStrategy.scanStep possibleWords previousGuesses) b).2 = none →
        b.2 = none ∧ ∀ x ∈ l, x ∈ previousGuesses)
  | [], b, hsub, hnone, hsome => by
    refine ⟨fun w hw => hsome w hw, fun h => ⟨h, by simp⟩⟩
  | c :: l, b, hsub, hnone, hsome => by
    rw [List.foldl_cons]
    by_cases hc : c ∈ previousGuesses
    · have hstep : MinimaxBasedStrategy.scanStep possibleWords previousGuesses b c = b := by
        simp only [MinimaxBasedStrategy.scanStep]
        rw [if_pos hc]
      rw [hstep]
      have ih := minimax_scan_spec vocabulary previousGuesses possibleWords l b
        (fun x hx => hsub x (List.mem_cons_of_mem c hx)) hnone hsome
      refine ⟨ih.1, ?_⟩
      intro h
      obtain ⟨h0, hall⟩ := ih.2 h
      refine ⟨h0, ?_⟩
      intro x hx
      rcases List.mem_cons.mp hx with rfl | hx'
      · exact hc
      · exact hall x hx'
    · by_cases hlt : (MinimaxBasedStrategy.worstCase possibleWords c : WithTop Nat) < b.1
      · have hstep : MinimaxBasedStrategy.scanStep possibleWords previousGuesses b c =
            ((MinimaxBasedStrategy.worstCase possibleWords c : WithTop Nat), some c) := by
          simp only [MinimaxBasedStrategy.scanStep]
          rw [if_neg hc, if_pos hlt]
        rw [hstep]
        have ih := minimax_scan_spec vocabulary previousGuesses possibleWords l
          ((MinimaxBasedStrategy.worstCase possibleWords c : WithTop Nat), some c)
          (fun x hx => hsub x (List.mem_cons_of_mem c hx))
          (by intro h; cases h)
          (by
            intro w hw
            obtain rfl : c = w := Option.some.inj hw
            exact ⟨hsub c (List.mem_cons_self c l), hc⟩)
        refine ⟨ih.1, ?_⟩
        intro h
        obtain ⟨h0, -⟩ := ih.2 h
        cases h0
      · have hstep : MinimaxBasedStrategy.scanStep possibleWords previousGuesses b c = b := by
          simp only [MinimaxBasedStrategy.scanStep]
          rw [if_neg hc, if_neg hlt]
        rw [hstep]
        have ih := minimax_scan_spec vocabulary previousGuesses possibleWords l b
          (fun x hx => hsub x (List.mem_cons_of_mem c hx)) hnone hsome
        refine ⟨ih.1, ?_⟩
        intro h
        obtain ⟨h0, -⟩ := ih.2 h
        exfalso
        have hb1 := hnone h0
        rw [hb1] at hlt
        exact hlt (WithTop.coe_lt_top _)

/-- The running frequency score stays nonnegative through the scoring loop:
each step adds a nonnegative count and at worst multiplies by 0.8. -/
theorem frequency_foldl_nonneg (possibleWords : List Word) :
    ∀ (l : List (Nat × Char)) (st : ℝ × List Char), 0 ≤ st.1 →
      0 ≤ (l.foldl (FrequencyBasedStrategy.scoreStep possibleWords) st).1
  | [], _, h => h
  | pl :: l, st, h => by
    rw [List.foldl_cons]
    apply frequency_foldl_nonneg possibleWords l
    have hc : (0 : ℝ) ≤ (FrequencyBasedStrategy.positionFrequency possibleWords pl.1 pl.2 : ℝ) :=
      Nat.cast_nonneg _
    simp only [FrequencyBasedStrategy.scoreStep]
    by_cases hmem : pl.2 ∈ st.2
    · rw [if_pos hmem]
      exact mul_nonneg (by linarith) (by norm_num)
    · rw [if_neg hmem]
      linarith

/-- Every frequency score is nonnegative, so it strictly beats the `-1` the
scan starts from. -/
theorem frequencyScore_nonneg (possibleWords : List Word) (candidateWord : Word) :
    0 ≤ FrequencyBasedStrategy.frequencyScore possibleWords candidateWord := by
  unfold FrequencyBasedStrategy.frequencyScore
  exact frequency_foldl_nonneg possibleWords candidateWord.enum
    ((0 : ℝ), ([] : List Char)) le_rfl

/-- Behaviour of the frequency strategy's vocabulary scan: a returned word
comes from the scanned list and is not excluded, and the scan comes back
empty-handed only when every scanned word was excluded (any frequency
score is `≥ 0 > -1`). -/
theorem frequency_scan_spec (vocabulary previousGuesses possibleWords : List Word) :
    ∀ (l : List Word) (b : ℝ × Option Word),
      (∀ x ∈ l, x ∈ vocabulary) →
      (b.2 = none → b.1 = -1) →
      (∀ w, b.2 = some w → w ∈ vocabulary ∧ w ∉ previousGuesses) →
      (∀ w, (l.foldl (FrequencyBasedStrategy.scanStep possibleWords previousGuesses) b).2 =
          some w → w ∈ vocabulary ∧ w ∉ previousGuesses) ∧
      ((l.foldl (FrequencyBasedStrategy.scanStep possibleWords previousGuesses) b).2 = none →
        b.2 = none ∧ ∀ x ∈ l, x ∈ previousGuesses)
  | [], b, hsub, hnone, hsome => by
    refine ⟨fun w hw => hsome w hw, fun h => ⟨h, by simp⟩⟩
  | c :: l, b, hsub, hnone, hsome => by
    rw [List.foldl_cons]
    by_cases hc : c ∈ previousGuesses
    · have hstep : FrequencyBasedStrategy.scanStep possibleWords previousGuesses b c = b := by
        simp only [FrequencyBasedStrategy.scanStep]
        rw [if_pos hc]
      rw [hstep]
      have ih := frequency_scan_spec vocabulary previousGuesses possibleWords l b
        (fun x hx => hsub x (List.mem_cons_of_mem c hx)) hnone hsome
      refine ⟨ih.1, ?_⟩
      intro h
      obtain ⟨h0, hall⟩ := ih.2 h
      refine ⟨h0, ?_⟩
      intro x hx
      rcases List.mem_cons.mp hx with rfl | hx'
      · exact hc
      · exact hall x hx'
    · by_cases hgt : FrequencyBasedStrategy.frequencyScore possibleWords c > b.1
      · have hstep : FrequencyBasedStrategy.scanStep possibleWords previousGuesses b c =
            (FrequencyBasedStrategy.frequencyScore possibleWords c, some c) := by
          simp only [FrequencyBasedStrategy.scanStep]
          rw [if_neg hc, if_pos hgt]
        rw [hstep]
        have ih := frequency_scan_spec vocabulary previousGuesses possibleWords l
          (FrequencyBasedStrategy.frequencyScore possibleWords c, some c)
          (fun x hx => hsub x (List.mem_cons_of_mem c hx))
          (by intro h; cases h)
          (by
            intro w hw
            obtain rfl : c = w := Option.some.inj hw
            exact ⟨hsub c (List.mem_cons_self c l), hc⟩)
        refine ⟨ih.1, ?_⟩
        intro h
        obtain ⟨h0, -⟩ := ih.2 h
        cases h0
      · have hstep : FrequencyBasedStrategy.scanStep possibleWords previousGuesses b c = b := by
          simp only [FrequencyBasedStrategy.scanStep]
          rw [if_neg hc, if_neg hgt]
        rw [hstep]
        have ih := frequency_scan_spec vocabulary previousGuesses possibleWords l b
          (fun x hx => hsub x (List.mem_cons_of_mem c hx)) hnone hsome
        refine ⟨ih.1, ?_⟩
        intro h
        obtain ⟨h0, -⟩ := ih.2 h
        exfalso
        have hb1 := hnone h0
        have hge := frequencyScore_nonneg possibleWords c
        rw [hb1] at hgt
        exact hgt (by linarith)

theorem foldl_min_le_init : ∀ (xs : List ℝ) (a : ℝ), xs.foldl min a ≤ a
  | [], a => le_refl a
  | x :: xs, a => le_trans (foldl_min_le_init xs (min a x)) (min_le_left a x)

theorem foldl_min_le_mem : ∀ (xs : List ℝ) (a x : ℝ), x ∈ xs → xs.foldl min a ≤ x
  | [], _, x, hx => absurd hx (List.not_mem_nil x)
  | y :: ys, a, x, hx => by
    rw [List.foldl_cons]
    rcases List.mem_cons.mp hx with rfl | hx'
    · exact le_trans (foldl_min_le_init ys (min a x)) (min_le_right a x)
    · exact foldl_min_le_mem ys (min a y) x hx'

/-- Python `min` of a list bounds each of its members from below. -/
theorem pyMin_le_of_mem (xs : List ℝ) (x : ℝ) (hx : x ∈ xs) :
    HybridStrategy.pyMin xs ≤ x :=
  foldl_min_le_mem xs (xs.headD 0) x hx

/-- Every entry of a min-max normalised score list is nonnegative: in the
spread case each entry is a quotient of nonnegatives, in the flat case each
entry is the constant 1.0. -/
theorem mem_normalized_nonneg (xs : List ℝ) (x : ℝ)
    (hx : x ∈ (if HybridStrategy.pyMax xs > HybridStrategy.pyMin xs then
        xs.map (fun s => (s - HybridStrategy.pyMin xs) /
          (HybridStrategy.pyMax xs - HybridStrategy.pyMin xs))
      else xs.map (fun _ => (1.0 : ℝ)))) :
    0 ≤ x := by
  by_cases h : HybridStrategy.pyMax xs > HybridStrategy.pyMin xs
  · rw [if_pos h] at hx
    obtain ⟨s, hs, rfl⟩ := List.mem_map.mp hx
    have hmin := pyMin_le_of_mem xs s hs
    apply div_nonneg
    · linarith
    · linarith
  · rw [if_neg h] at hx
    obtain ⟨s, -, rfl⟩ := List.mem_map.mp hx
    norm_num

/-- Behaviour of the hybrid strategy's final selection loop over the zipped
candidate/score list: a returned word comes from the first components of
the scanned pairs, and with every blended score above `-1` the loop comes
back empty-handed only from an empty list. -/
theorem mix_scan_spec (fw ew : ℝ) (vocabulary previousGuesses : List Word) :
    ∀ (L : List (Word × (ℝ × ℝ))) (b : ℝ × Option Word),
      (∀ ce ∈ L, ce.1 ∈ vocabulary ∧ ce.1 ∉ previousGuesses ∧
        -1 < fw * ce.2.1 + ew * ce.2.2) →
      (b.2 = none → b.1 = -1) →
      (∀ w, b.2 = some w → w ∈ vocabulary ∧ w ∉ previousGuesses) →
      (∀ w, (L.foldl (HybridStrategy.mixStep fw ew) b).2 = some w →
        w ∈ vocabulary ∧ w ∉ previousGuesses) ∧
      ((L.foldl (HybridStrategy.mixStep fw ew) b).2 = none → b.2 = none ∧ L = [])
  | [], b, hL, hnone, hsome => ⟨fun w hw => hsome w hw, fun h => ⟨h, rfl⟩⟩
  | ce :: L, b, hL, hnone, hsome => by
    rw [List.foldl_cons]
    by_cases hgt : fw * ce.2.1 + ew * ce.2.2 > b.1
    · have hstep : HybridStrategy.mixStep fw ew b ce =
          (fw * ce.2.1 + ew * ce.2.2, some ce.1) := by
        simp only [HybridStrategy.mixStep]
        rw [if_pos hgt]
      rw [hstep]
      have ih := mix_scan_spec fw ew vocabulary previousGuesses L
        (fw * ce.2.1 + ew * ce.2.2, some ce.1)
        (fun x hx => hL x (List.mem_cons_of_mem ce hx))
        (by intro h; cases h)
        (by
          intro w hw
          obtain rfl : ce.1 = w := Option.some.inj hw
          exact ⟨(hL ce (List.mem_cons_self ce L)).1, (hL ce (List.mem_cons_self ce L)).2.1⟩)
      refine ⟨ih.1, ?_⟩
      intro h
      obtain ⟨h0, -⟩ := ih.2 h
      cases h0
    · have hstep : HybridStrategy.mixStep fw ew b ce = b := by
        simp only [HybridStrategy.mixStep]
        rw [if_neg hgt]
      rw [hstep]
      have ih := mix_scan_spec fw ew vocabulary previousGuesses L b
        (fun x hx => hL x (List.mem_cons_of_mem ce hx)) hnone hsome
      refine ⟨ih.1, ?_⟩
      intro h
      obtain ⟨h0, -⟩ := ih.2 h
      exfalso
      have hb1 := hnone h0
      rw [hb1] at hgt
      exact hgt (hL ce (List.mem_cons_self ce L)).2.2

/-- Provisoed choice contract for the entropy strategy: under the stated
path provisos, `choose_best_guess` returns a non-excluded vocabulary
word. -/
theorem entropy_choice_spec (vocabulary previousGuesses possibleWords : List Word)
    (attempts : Nat)
    (hne : possibleWords ≠ [])
    (h0 : attempts = 0 → "tares".toList ∈ vocabulary ∧ "tares".toList ∉ previousGuesses)
    (h1 : attempts ≠ 0 → possibleWords.length = 1 →
      ∀ w ∈ possibleWords, w ∈ vocabulary ∧ w ∉ previousGuesses)
    (h2 : attempts ≠ 0 → possibleWords.length ≠ 1 →
      ∃ w ∈ vocabulary, w ∉ previousGuesses) :
    ∃ w, EntropyBasedStrategy.chooseBestGuess vocabulary previousGuesses possibleWords
        attempts = some w ∧ w ∈ vocabulary ∧ w ∉ previousGuesses := by
  unfold EntropyBasedStrategy.chooseBestGuess
  by_cases ha : attempts = 0
  · rw [if_pos ha]
    exact ⟨_, rfl, (h0 ha).1, (h0 ha).2⟩
  · rw [if_neg ha]
    by_cases hl : possibleWords.length = 1
    · rw [if_pos hl]
      obtain ⟨w, rfl⟩ := List.length_eq_one.mp hl
      exact ⟨w, rfl, (h1 ha hl w (List.mem_cons_self w [])).1,
        (h1 ha hl w (List.mem_cons_self w [])).2⟩
    · rw [if_neg hl]
      obtain ⟨w0, hw0v, hw0p⟩ := h2 ha hl
      have hspec := entropy_scan_spec vocabulary previousGuesses possibleWords vocabulary
        ((-1 : ℝ), none) (fun x hx => hx) (fun _ => rfl) (fun w hw => Option.noConfusion hw)
      cases hres : (vocabulary.foldl
          (EntropyBasedStrategy.scanStep possibleWords previousGuesses)
          ((-1 : ℝ), none)).2 with
      | none =>
        exfalso
        obtain ⟨-, hall⟩ := hspec.2 hres
        exact hw0p (hall w0 hw0v)
      | some w =>
        exact ⟨w, rfl, hspec.1 w hres⟩

/-- Provisoed choice contract for the minimax strategy: under the stated
path provisos, `choose_best_guess` returns a non-excluded vocabulary
word. -/
theorem minimax_choice_spec (vocabulary previousGuesses possibleWords : List Word)
    (attempts : Nat)
    (hne : possibleWords ≠ [])
    (h0 : attempts = 0 → "serai".toList ∈ vocabulary ∧ "serai".toList ∉ previousGuesses)
    (h1 : attempts ≠ 0 → possibleWords.length = 1 →
      ∀ w ∈ possibleWords, w ∈ vocabulary ∧ w ∉ previousGuesses)
    (h2 : attempts ≠ 0 → possibleWords.length ≠ 1 →
      ∃ w ∈ vocabulary, w ∉ previousGuesses) :
    ∃ w, MinimaxBasedStrategy.chooseBestGuess vocabulary previousGuesses possibleWords
        attempts = some w ∧ w ∈ vocabulary ∧ w ∉ previousGuesses := by
  unfold MinimaxBasedStrategy.chooseBestGuess
  by_cases ha : attempts = 0
  · rw [if_pos ha]
    exact ⟨_, rfl, (h0 ha).1, (h0 ha).2⟩
  · rw [if_neg ha]
    by_cases hl : possibleWords.length = 1
    · rw [if_pos hl]
      obtain ⟨w, rfl⟩ := List.length_eq_one.mp hl
      exact ⟨w, rfl, (h1 ha hl w (List.mem_cons_self w [])).1,
        (h1 ha hl w (List.mem_cons_self w [])).2⟩
    · rw [if_neg hl]
      obtain ⟨w0, hw0v, hw0p⟩ := h2 ha hl
      have hspec := minimax_scan_spec vocabulary previousGuesses possibleWords vocabulary
        ((⊤ : WithTop Nat), none) (fun x hx => hx) (fun _ => rfl)
        (fun w hw => Option.noConfusion hw)
      cases hres : (vocabulary.foldl
          (MinimaxBasedStrategy.scanStep possibleWords previousGuesses)
          ((⊤ : WithTop Nat), none)).2 with
      | none =>
        exfalso
        obtain ⟨-, hall⟩ := hspec.2 hres
        exact hw0p (hall w0 hw0v)
      | some w =>
        exact ⟨w, rfl, hspec.1 w hres⟩

/-- Provisoed choice contract for the frequency strategy: under the stated
path provisos, `choose_best_guess` returns a non-excluded vocabulary
word. -/
theorem frequency_choice_spec (vocabulary previousGuesses possibleWords : List Word)
    (attempts : Nat)
    (hne : possibleWords ≠ [])
    (h0 : attempts = 0 → "cares".toList ∈ vocabulary ∧ "cares".toList ∉ previousGuesses)
    (h1 : attempts ≠ 0 → possibleWords.length = 1 →
      ∀ w ∈ possibleWords, w ∈ vocabulary ∧ w ∉ previousGuesses)
    (h2 : attempts ≠ 0 → possibleWords.length ≠ 1 →
      ∃ w ∈ vocabulary, w ∉ previousGuesses) :
    ∃ w, FrequencyBasedStrategy.chooseBestGuess vocabulary previousGuesses possibleWords
        attempts = some w ∧ w ∈ vocabulary ∧ w ∉ previousGuesses := by
  unfold FrequencyBasedStrategy.chooseBestGuess
  by_cases ha : attempts = 0
  · rw [if_pos ha]
    exact ⟨_, rfl, (h0 ha).1, (h0 ha).2⟩
  · rw [if_neg ha]
    by_cases hl : possibleWords.length = 1
    · rw [if_pos hl]
      obtain ⟨w, rfl⟩ := List.length_eq_one.mp hl
      exact ⟨w, rfl, (h1 ha hl w (List.mem_cons_self w [])).1,
        (h1 ha hl w (List.mem_cons_self w [])).2⟩
    · rw [if_neg hl]
      obtain ⟨w0, hw0v, hw0p⟩ := h2 ha hl
      have hspec := frequency_scan_spec vocabulary previousGuesses possibleWords vocabulary
        ((-1 : ℝ), none) (fun x hx => hx) (fun _ => rfl) (fun w hw => Option.noConfusion hw)
      cases hres : (vocabulary.foldl
          (FrequencyBasedStrategy.scanStep possibleWords previousGuesses)
          ((-1 : ℝ), none)).2 with
      | none =>
        exfalso
        obtain ⟨-, hall⟩ := hspec.2 hres
        exact hw0p (hall w0 hw0v)
      | some w =>
        exact ⟨w, rfl, hspec.1 w hres⟩

/-- Provisoed choice contract for the hybrid strategy: under the stated
path provisos, `choose_best_guess` returns a non-excluded vocabulary word
(the candidate list is pre-filtered against the excluding set, the
normalised scores are nonnegative and the renormalised weights are
nonnegative, so every blended score beats the initial `-1`). -/
theorem hybrid_choice_spec (vocabulary previousGuesses possibleWords : List Word)
    (attempts : Nat)
    (hne : possibleWords ≠ [])
    (h0 : attempts = 0 → "tares".toList ∈ vocabulary ∧ "tares".toList ∉ previousGuesses)
    (h1 : attempts ≠ 0 → possibleWords.length = 1 →
      ∀ w ∈ possibleWords, w ∈ vocabulary ∧ w ∉ previousGuesses)
    (h2 : attempts ≠ 0 → possibleWords.length ≠ 1 →
      ∃ w ∈ vocabulary, w ∉ previousGuesses) :
    ∃ w, HybridStrategy.chooseBestGuess vocabulary previousGuesses possibleWords
        attempts = some w ∧ w ∈ vocabulary ∧ w ∉ previousGuesses := by
  unfold HybridStrategy.chooseBestGuess
  by_cases ha : attempts = 0
  · rw [if_pos ha]
    exact ⟨_, rfl, (h0 ha).1, (h0 ha).2⟩
  · rw [if_neg ha]
    by_cases hl : possibleWords.length = 1
    · rw [if_pos hl]
      obtain ⟨w, rfl⟩ := List.length_eq_one.mp hl
      exact ⟨w, rfl, (h1 ha hl w (List.mem_cons_self w [])).1,
        (h1 ha hl w (List.mem_cons_self w [])).2⟩
    · rw [if_neg hl]
      obtain ⟨w0, hw0v, hw0p⟩ := h2 ha hl
      simp only []
      set cw := vocabulary.filter (fun c => decide (c ∉ previousGuesses)) with hcw
      set fs := cw.map (FrequencyBasedStrategy.frequencyScore possibleWords) with hfs
      set es := cw.map (EntropyBasedStrategy.expectedEntropy possibleWords) with hes
      set nfl := (if HybridStrategy.pyMax fs > HybridStrategy.pyMin fs then
          fs.map (fun s => (s - HybridStrategy.pyMin fs) /
            (HybridStrategy.pyMax fs - HybridStrategy.pyMin fs))
        else fs.map (fun _ => (1.0 : ℝ))) with hnfl
      set nel := (if HybridStrategy.pyMax es > HybridStrategy.pyMin es then
          es.map (fun s => (s - HybridStrategy.pyMin es) /
            (HybridStrategy.pyMax es - HybridStrategy.pyMin es))
        else es.map (fun _ => (1.0 : ℝ))) with hnel
      set ew0 := max (0.7 - (attempts : ℝ) * 0.1) 0.1 with hew0
      set fw0 := min (0.3 + (attempts : ℝ) * 0.1) 0.9 with hfw0
      have hw0cw : w0 ∈ cw := by
        rw [hcw]
        exact List.mem_filter.mpr ⟨hw0v, decide_eq_true hw0p⟩
      have hlen_nfl : nfl.length = cw.length := by
        rw [hnfl]
        by_cases h : HybridStrategy.pyMax fs > HybridStrategy.pyMin fs
        · rw [if_pos h, List.length_map, hfs, List.length_map]
        · rw [if_neg h, List.length_map, hfs, List.length_map]
      have hlen_nel : nel.length = cw.length := by
        rw [hnel]
        by_cases h : HybridStrategy.pyMax es > HybridStrategy.pyMin es
        · rw [if_pos h, List.length_map, hes, List.length_map]
        · rw [if_neg h, List.length_map, hes, List.length_map]
      have hLlen : (cw.zip (nfl.zip nel)).length = cw.length := by
        rw [List.length_zip, List.length_zip, hlen_nfl, hlen_nel]
        simp
      have hLne : cw.zip (nfl.zip nel) ≠ [] := by
        have hcwne : cw ≠ [] := List.ne_nil_of_mem hw0cw
        rw [← List.length_pos] at hcwne ⊢
        rw [hLlen]
        exact hcwne
      have hew0pos : (0 : ℝ) < ew0 := lt_of_lt_of_le (by norm_num) (le_max_right _ _)
      have hfw0pos : (0 : ℝ) < fw0 := lt_min (by positivity) (by norm_num)
      have htot : (0 : ℝ) < ew0 + fw0 := by linarith
      have hfw : (0 : ℝ) ≤ fw0 / (ew0 + fw0) := div_nonneg hfw0pos.le htot.le
      have hew : (0 : ℝ) ≤ ew0 / (ew0 + fw0) := div_nonneg hew0pos.le htot.le
      have hL : ∀ ce ∈ cw.zip (nfl.zip nel), ce.1 ∈ vocabulary ∧ ce.1 ∉ previousGuesses ∧
          -1 < fw0 / (ew0 + fw0) * ce.2.1 + ew0 / (ew0 + fw0) * ce.2.2 := by
        rintro ⟨w, s1, s2⟩ hce
        obtain ⟨hwcw, hs⟩ := List.of_mem_zip hce
        obtain ⟨hs1, hs2⟩ := List.of_mem_zip hs
        rw [hcw] at hwcw
        obtain ⟨hwv, hwd⟩ := List.mem_filter.mp hwcw
        refine ⟨hwv, of_decide_eq_true hwd, ?_⟩
        have hn1 : (0 : ℝ) ≤ s1 := by
          rw [hnfl] at hs1
          exact mem_normalized_nonneg fs s1 hs1
        have hn2 : (0 : ℝ) ≤ s2 := by
          rw [hnel] at hs2
          exact mem_normalized_nonneg es s2 hs2
        have t1 : (0 : ℝ) ≤ fw0 / (ew0 + fw0) * s1 := mul_nonneg hfw hn1
        have t2 : (0 : ℝ) ≤ ew0 / (ew0 + fw0) * s2 := mul_nonneg hew hn2
        show -1 < fw0 / (ew0 + fw0) * s1 + ew0 / (ew0 + fw0) * s2
        linarith
      have hspec := mix_scan_spec (fw0 / (ew0 + fw0)) (ew0 / (ew0 + fw0)) vocabulary
        previousGuesses (cw.zip (nfl.zip nel)) ((-1 : ℝ), none) hL (fun _ => rfl)
        (fun w hw => Option.noConfusion hw)
      cases hres : ((cw.zip (nfl.zip nel)).foldl
          (HybridStrategy.mixStep (fw0 / (ew0 + fw0)) (ew0 / (ew0 + fw0)))
          ((-1 : ℝ), none)).2 with
      | none =>
        exfalso
        exact hLne (hspec.2 hres).2
      | some w =>
        exact ⟨w, rfl, hspec.1 w hres⟩

/-- **C7 counterexample**: the entropy strategy's opening-guess path returns
the fixed opener `'tares'` no matter what the vocabulary is; with
vocabulary `["aaaaa"]` and a non-empty pool, the returned word is not a
member of the vocabulary, refuting the claimed contract. -/
theorem claim7_counterexample :
    EntropyBasedStrategy.chooseBestGuess ["aaaaa".toList] []
      ["aaaaa".toList, "bbbbb".toList] 0 = some "tares".toList ∧
    "tares".toList ∉ ["aaaaa".toList] :=
  ⟨rfl, by decide⟩

/-- **C7 (amended)** For every strategy variant (entropy, minimax,
frequency, hybrid), with a non-empty candidate pool, `choose_best_guess`
returns some word of the Vocabulary outside the excluding set provided the
path taken can deliver one: on the opening path (attempt 0) when the
variant's fixed opener (`'tares'`, `'serai'`, `'cares'`, `'tares'`
respectively) is in the Vocabulary and not excluded; on the
single-candidate fast path when the sole pool word is in the Vocabulary
and not excluded; and on the vocabulary-scanning path whenever at least
one Vocabulary word is outside the excluding set (unconditionally on the
pool: every expected-entropy and frequency score strictly exceeds the
initial `-1`, every worst case is below the initial `float('inf')`, and
every blended hybrid score of the pre-filtered candidates strictly exceeds
the initial `-1`).  Without these provisos the claim is false (see the
counterexample). -/
theorem claim7_amended_strategy_choice (vocabulary previousGuesses possibleWords : List Word)
    (attempts : Nat)
    (hne : possibleWords ≠ [])
    (hE : attempts = 0 → "tares".toList ∈ vocabulary ∧ "tares".toList ∉ previousGuesses)
    (hM : attempts = 0 → "serai".toList ∈ vocabulary ∧ "serai".toList ∉ previousGuesses)
    (hF : attempts = 0 → "cares".toList ∈ vocabulary ∧ "cares".toList ∉ previousGuesses)
    (h1 : attempts ≠ 0 → possibleWords.length = 1 →
      ∀ w ∈ possibleWords, w ∈ vocabulary ∧ w ∉ previousGuesses)
    (h2 : attempts ≠ 0 → possibleWords.length ≠ 1 →
      ∃ w ∈ vocabulary, w ∉ previousGuesses) :
    (∃ w, EntropyBasedStrategy.chooseBestGuess vocabulary previousGuesses possibleWords
        attempts = some w ∧ w ∈ vocabulary ∧ w ∉ previousGuesses) ∧
    (∃ w, MinimaxBasedStrategy.chooseBestGuess vocabulary previousGuesses possibleWords
        attempts = some w ∧ w ∈ vocabulary ∧ w ∉ previousGuesses) ∧
    (∃ w, FrequencyBasedStrategy.chooseBestGuess vocabulary previousGuesses possibleWords
        attempts = some w ∧ w ∈ vocabulary ∧ w ∉ previousGuesses) ∧
    (∃ w, HybridStrategy.chooseBestGuess vocabulary previousGuesses possibleWords
        attempts = some w ∧ w ∈ vocabulary ∧ w ∉ previousGuesses) :=
  ⟨entropy_choice_spec vocabulary previousGuesses possibleWords attempts hne hE h1 h2,
   minimax_choice_spec vocabulary previousGuesses possibleWords attempts hne hM h1 h2,
   frequency_choice_spec vocabulary previousGuesses possibleWords attempts hne hF h1 h2,
   hybrid_choice_spec vocabulary previousGuesses possibleWords attempts hne hE h1 h2⟩

theorem claim7_amended_witness :
    (["abcde".toList, "fghij".toList] : List Word) ≠ [] ∧
    ((∃ w, EntropyBasedStrategy.chooseBestGuess
        ["tares".toList, "serai".toList, "cares".toList] []
        ["abcde".toList, "fghij".toList] 0 = some w ∧
      w ∈ ["tares".toList, "serai".toList, "cares".toList] ∧ w ∉ ([] : List Word)) ∧
    (∃ w, MinimaxBasedStrategy.chooseBestGuess
        ["tares".toList, "serai".toList, "cares".toList] []
        ["abcde".toList, "fghij".toList] 0 = some w ∧
      w ∈ ["tares".toList, "serai".toList, "cares".toList] ∧ w ∉ ([] : List Word)) ∧
    (∃ w, FrequencyBasedStrategy.chooseBestGuess
        ["tares".toList, "serai".toList, "cares".toList] []
        ["abcde".toList, "fghij".toList] 0 = some w ∧
      w ∈ ["tares".toList, "serai".toList, "cares".toList] ∧ w ∉ ([] : List Word)) ∧
    (∃ w, HybridStrategy.chooseBestGuess
        ["tares".toList, "serai".toList, "cares".toList] []
        ["abcde".toList, "fghij".toList] 0 = some w ∧
      w ∈ ["tares".toList, "serai".toList, "cares".toList] ∧ w ∉ ([] : List Word))) :=
  ⟨by decide, claim7_amended_strategy_choice
    ["tares".toList, "serai".toList, "cares".toList] []
    ["abcde".toList, "fghij".toList] 0 (by decide) (by decide) (by decide) (by decide)
    (by decide) (by decide)⟩

section SanityChecks

/-- Spec §8 concrete case 1: `feedback("abcde", "edcba")` is
`[Present, Present, Correct, Present, Present]`. -/
example :
    AbstractStrategy.generateFeedback "abcde".toList "edcba".toList = "YYGYY".toList := by
  decide

/-- Spec §8 concrete case 2: `feedback("aabbc", "ccbba")` under the
two-pass algorithm. -/
example :
    AbstractStrategy.generateFeedback "aabbc".toList "ccbba".toList = "Y_GGY".toList := by
  decide

example :
    AbstractStrategy.reduceWordsSpace "aabzz".toList
      ["abfgh".toList, "abzgh".toList] "GYY__".toList = [ "abfgh".toList ] := by
  decide

example :
    AbstractStrategy.generateFeedback "aabzz".toList "abfgh".toList = "G_Y__".toList := by
  decide

end SanityChecks
